import Mathlib

/-!
Verification development for the Glyph knowledge-graph generation core
(`Sources/Glyph/knowledge_graph_generation.py`).

The Python code is shallowly embedded: Python strings are `List Char`,
Python floats are modelled as rationals `ℚ` (the claims under study only
use comparisons, additions and multiplications that are exact in `ℚ`),
Python dictionaries are insertion-ordered association lists, and the
mutable `KnowledgeGraphBuilder` state is passed explicitly.  External
collaborators (the sentence-transformer embedding model, scikit-learn,
NLTK) are modelled as parameters of an environment record; every graph
algorithm of the core itself (co-occurrence edge construction, connected
components, Kruskal's minimum spanning tree, the multi-component star
connection, topic-relevance filtering, concept deduplication, time
estimates) is translated from the source.
-/

namespace Glyph

/-- Python strings are modelled as lists of characters. -/
abbrev Str := List Char

/-- `str.lower()` (ASCII-adequate, matching the labels the code compares). -/
def pyLower (s : Str) : Str := s.map Char.toLower

/-- `str.upper()`. -/
def pyUpper (s : Str) : Str := s.map Char.toUpper

/-- Whether `pre` is a prefix of `l` (Boolean). -/
def isPrefixB : Str → Str → Bool
  | [], _ => true
  | _ :: _, [] => false
  | a :: as, b :: bs => a == b && isPrefixB as bs

/-- Python's substring test `needle in hay`. -/
def containsSub (hay needle : Str) : Bool :=
  match hay with
  | [] => isPrefixB needle []
  | _ :: t => isPrefixB needle hay || containsSub t needle

/-- Python's `str.endswith(suffix)`. -/
def pyEndsWith (s suf : Str) : Bool := isPrefixB suf.reverse s.reverse

/-- Python's `str.strip()`: drop leading and trailing whitespace. -/
def pyStrip (s : Str) : Str :=
  ((s.dropWhile Char.isWhitespace).reverse.dropWhile Char.isWhitespace).reverse

/-- Helper for `pyWords`: split on whitespace, accumulating the current word. -/
def wordsAux (cur : Str) (acc : List Str) : Str → List Str
  | [] => if cur.isEmpty then acc.reverse else (cur.reverse :: acc).reverse
  | c :: cs =>
    if c.isWhitespace then
      (if cur.isEmpty then wordsAux [] acc cs else wordsAux [] (cur.reverse :: acc) cs)
    else wordsAux (c :: cur) acc cs

/-- Python's `str.split()` with no argument: split on whitespace runs,
dropping empty pieces. -/
def pyWords (s : Str) : List Str := wordsAux [] [] s

/-- `set(xs)` used only through its cardinality / membership: deduplicated list. -/
def pySet (l : List Str) : List Str := l.dedup

/-- Python truncating conversion `int(q)` (truncation toward zero). -/
def pyInt (q : ℚ) : Int := if 0 ≤ q then ⌊q⌋ else ⌈q⌉

/-! ## GraphBuilder: `_build_graph_structure` (lines 575-623)

The builder graph is a `networkx.DiGraph`; nodes live in an
insertion-ordered dictionary keyed by node id, and directed edges carry a
co-occurrence weight. -/

/-- An extracted node as handed to `_build_graph_structure`
(`{id, label, type, frequency, importance, source_references}`). -/
structure ExtractedNode where
  id : Str
  label : Str
  ntype : Str
  frequency : Nat
  importance : ℚ
  source_references : List Str
deriving DecidableEq

/-- A source document (`{title, content}`; the other keys are unused by
the graph-construction step). -/
structure Source where
  title : Str
  content : Str
deriving DecidableEq

/-- Insert a key/value pair into an insertion-ordered dictionary
(`d[k] = v` semantics: overwrite in place, else append). -/
def dictInsert (k : Str) (v : Str) (d : List (Str × Str)) : List (Str × Str) :=
  if d.any (fun p => p.1 == k) then
    d.map (fun p => if p.1 == k then (k, v) else p)
  else d ++ [(k, v)]

/-- `node_labels = {node['id']: node['label'] for node in all_nodes}`. -/
def nodeLabels (ns : List ExtractedNode) : List (Str × Str) :=
  ns.foldl (fun d n => dictInsert n.id n.label d) []

/-- The node ids appearing in a source: those whose label (lowercased) is a
substring of the source's lowercased `content + ' ' + title`. -/
def appearingNodes (labels : List (Str × Str)) (src : Source) : List Str :=
  let content := pyLower (src.content ++ [' '] ++ src.title)
  (labels.filter (fun p => containsSub content (pyLower p.2))).map (·.1)

/-- The ordered pairs `(l[i], l[j])` for `i < j`, in the order the Python
double loop visits them. -/
def listPairs : List Str → List (Str × Str)
  | [] => []
  | x :: xs => xs.map (fun y => (x, y)) ++ listPairs xs

/-- All co-occurring pairs over all sources: each element contributes `+1`
to `cooccurrence[a][b]` and to `cooccurrence[b][a]`. -/
def coocPairs (labels : List (Str × Str)) (sources : List Source) : List (Str × Str) :=
  sources.flatMap (fun s => listPairs (appearingNodes labels s))

/-- The accumulated co-occurrence count `cooccurrence[u][v]`. -/
def coocCount (labels : List (Str × Str)) (sources : List Source) (u v : Str) : Nat :=
  (coocPairs labels sources).countP
    (fun q => decide ((q.1 = u ∧ q.2 = v) ∨ (q.1 = v ∧ q.2 = u)))

/-- The directed weighted edges added by `_build_graph_structure`: one
directed edge per ordered pair of node ids whose accumulated
co-occurrence count is at least the minimum threshold 2, with weight equal
to that count. -/
def buildEdges (ns : List ExtractedNode) (sources : List Source) :
    List (Str × Str × Nat) :=
  let labels := nodeLabels ns
  let ids := labels.map (·.1)
  (ids.product ids).filterMap (fun p =>
    let w := coocCount labels sources p.1 p.2
    if 2 ≤ w then some (p.1, p.2, w) else none)

/-! ## Graph state

A node of the builder graph (`self.graph.add_node(...)` attributes, plus
the `topic_relevance` attribute the filter may attach later). -/

structure NodeRec where
  id : Str
  label : Str
  ntype : Str
  frequency : Nat
  importance : ℚ
  source_references : List Str
  topic_relevance : Option ℚ
deriving DecidableEq

/-- The builder's `networkx.DiGraph`: an insertion-ordered node dictionary
and a directed weighted edge list. -/
structure BGraph where
  nodes : List NodeRec
  edges : List (Str × Str × Nat)
deriving DecidableEq

/-- The node ids of a graph, in insertion order. -/
def BGraph.ids (g : BGraph) : List Str := g.nodes.map (·.id)

/-- `graph.add_node(id, **data)`: overwrite the record with this id, else append. -/
def addNodeRec (g : BGraph) (n : NodeRec) : BGraph :=
  { g with nodes :=
      if g.nodes.any (fun m => decide (m.id = n.id)) then
        g.nodes.map (fun m => if m.id = n.id then n else m)
      else g.nodes ++ [n] }

/-- An extracted node as inserted into the graph (no `topic_relevance` yet). -/
def toNodeRec (x : ExtractedNode) : NodeRec :=
  ⟨x.id, x.label, x.ntype, x.frequency, x.importance, x.source_references, none⟩

/-- `_build_graph_structure`: add all concept and entity nodes, then the
co-occurrence edges. -/
def buildGraphStructure (concepts entities : List ExtractedNode)
    (sources : List Source) : BGraph :=
  let allNodes := concepts ++ entities
  let g1 := allNodes.foldl (fun g n => addNodeRec g (toNodeRec n)) ⟨[], []⟩
  { g1 with edges := buildEdges allNodes sources }

/-- The four centrality score maps (`self.centrality_scores`). -/
structure CentralityScoreSet where
  pagerank : List (Str × ℚ)
  eigenvector : List (Str × ℚ)
  betweenness : List (Str × ℚ)
  closeness : List (Str × ℚ)
deriving DecidableEq

/-! ## Connected components via block merging

`networkx`'s `connected_components` and the union-find inside Kruskal's
algorithm are embedded as one executable partition-merging computation:
start from singleton blocks and merge the endpoint blocks of each edge. -/

/-- The first block of the partition containing `a`, if any. -/
def blockOf (p : List (List Str)) (a : Str) : Option (List Str) :=
  p.find? (fun b => decide (a ∈ b))

/-- Whether `a` and `b` lie in the same block of the partition. -/
def sameBlockB (p : List (List Str)) (a b : Str) : Bool :=
  match blockOf p a with
  | some blk => decide (b ∈ blk)
  | none => false

/-- Remove the first occurrence of a block from the partition. -/
def eraseBlock (p : List (List Str)) (b : List Str) : List (List Str) :=
  match p with
  | [] => []
  | c :: rest => if c = b then rest else c :: eraseBlock rest b

/-- Merge the blocks containing `a` and `b` (no-op if already together or
if either is missing). -/
def mergeBlocks (p : List (List Str)) (a b : Str) : List (List Str) :=
  if sameBlockB p a b then p
  else
    match blockOf p a, blockOf p b with
    | some A, some B => (A ++ B) :: eraseBlock (eraseBlock p A) B
    | _, _ => p

/-- The connected components of the undirected graph `(nodes, edges)`. -/
def componentsOfEdges (nodes : List Str) (edges : List (Str × Str)) :
    List (List Str) :=
  edges.foldl (fun p e => mergeBlocks p e.1 e.2) (nodes.map (fun x => [x]))

/-! ## MinimalSubgraphExtractor: `_find_minimal_subgraph` (lines 684-856) -/

/-- An edge of the undirected MST working graph: reciprocal-transformed
cost, original weight, and whether it is a synthetic `inter_component`
connector. -/
structure MstEdge where
  u : Str
  v : Str
  recip : ℚ
  orig : ℚ
  inter : Bool
deriving DecidableEq

/-- The endpoint pair of an MST edge. -/
def MstEdge.pair (e : MstEdge) : Str × Str := (e.u, e.v)

/-- `self.graph.to_undirected()`: collapse directed edges into one
undirected edge per unordered pair (first data encountered wins; the
builder's weights are symmetric, so the choice is immaterial). -/
def undirectedWeighted (es : List (Str × Str × Nat)) : List (Str × Str × ℚ) :=
  es.foldl (fun acc e =>
    if acc.any (fun f =>
        decide ((f.1 = e.1 ∧ f.2.1 = e.2.1) ∨ (f.1 = e.2.1 ∧ f.2.1 = e.1))) then
      acc
    else acc ++ [(e.1, e.2.1, (e.2.2 : ℚ))]) []

/-- Step 2 of `_find_minimal_subgraph`: the MST working graph's edges,
with reciprocal weights `1/(w + 1e-6)` and the original weight retained. -/
def mstGraphEdges (g : BGraph) : List MstEdge :=
  (undirectedWeighted g.edges).map (fun t =>
    ⟨t.1, t.2.1, 1 / (t.2.2 + 1 / 1000000), t.2.2, false⟩)

/-- Kruskal's algorithm (as in `nx.minimum_spanning_tree(..,
algorithm='kruskal')`): scan edges in sorted order, keeping an edge iff
its endpoints are not yet connected. -/
def kruskalFold (nodes : List Str) (sorted : List MstEdge) :
    List (List Str) × List MstEdge :=
  sorted.foldl (fun st e =>
    if sameBlockB st.1 e.u e.v then st
    else (mergeBlocks st.1 e.u e.v, st.2 ++ [e]))
    (nodes.map (fun x => [x]), [])

/-- The Kruskal minimum spanning forest of `(nodes, edges)`, sorting by
the transformed (reciprocal) weight with a stable sort. -/
def kruskalMST (nodes : List Str) (edges : List MstEdge) : List MstEdge :=
  (kruskalFold nodes (List.insertionSort (fun a b => a.recip ≤ b.recip) edges)).2

/-- `mst_graph.subgraph(component)`: edges with both endpoints inside. -/
def inducedEdges (c : List Str) (es : List MstEdge) : List MstEdge :=
  es.filter (fun e => decide (e.u ∈ c) && decide (e.v ∈ c))

/-- Step 3a: an MST per component (single-node components keep no edges). -/
def componentMSTs (comps : List (List Str)) (es : List MstEdge) :
    List (List Str × List MstEdge) :=
  comps.map (fun c =>
    if 1 < c.length then (c, kruskalMST c (inducedEdges c es)) else (c, []))

/-- Unweighted degree of a node within a component MST. -/
def treeDegree (f : List MstEdge) (x : Str) : Nat :=
  (f.filter (fun e => decide (e.u = x))).length +
  (f.filter (fun e => decide (e.v = x))).length

/-- `nx.degree_centrality` within a component MST: `degree/(n-1)`, and `1`
for each node of a graph with at most one node. -/
def componentCentrality (c : List Str) (f : List MstEdge) : List (Str × ℚ) :=
  if c.length ≤ 1 then c.map (fun x => (x, 1))
  else c.map (fun x => (x, (treeDegree f x : ℚ) / ((c.length : ℚ) - 1)))

/-- Python's `max(items, key=value)`: the first pair attaining the maximal
value (`none` for an empty list). -/
def firstMax (l : List (Str × ℚ)) : Option (Str × ℚ) :=
  l.foldl (fun acc p =>
    match acc with
    | none => some p
    | some q => if q.2 < p.2 then some p else some q) none

/-- Step 3b: one connector per component — the highest-degree-centrality
node of its MST (skipping empty components, as the source's guards do). -/
def componentConnectors (msts : List (List Str × List MstEdge)) :
    List (Str × ℚ) :=
  msts.filterMap (fun cf => firstMax (componentCentrality cf.1 cf.2))

/-- Sort connectors by centrality, highest first (stable). -/
def sortConnectorsDesc (l : List (Str × ℚ)) : List (Str × ℚ) :=
  List.insertionSort (fun a b => b.2 ≤ a.2) l

/-- The synthetic star edges: connect every other connector to the single
highest-centrality connector, with reciprocal cost `0.1` and original
weight `1/0.1 = 10`, tagged `inter_component`. -/
def syntheticEdges (conns : List (Str × ℚ)) : List MstEdge :=
  match sortConnectorsDesc conns with
  | [] => []
  | main :: rest => rest.map (fun c => ⟨main.1, c.1, 1 / 10, 10, true⟩)

/-- The multi-component branch: per-component MSTs combined by
`nx.union`, plus the synthetic star connectors. -/
def multiComponentMST (comps : List (List Str)) (es : List MstEdge) :
    List Str × List MstEdge :=
  let msts := componentMSTs comps es
  ((msts.map (·.1)).flatten,
   msts.flatMap (·.2) ++ syntheticEdges (componentConnectors msts))

/-- Step 4: convert the combined MST back to a directed graph — reuse the
original direction when the directed edge exists, the reverse direction if
only it exists, and both directions for synthetic connectors. Each entry
is `(source, target, weight, inter_component?)`. -/
def directedReconstruct (g : BGraph) (es : List MstEdge) :
    List (Str × Str × ℚ × Bool) :=
  es.flatMap (fun e =>
    if g.edges.any (fun d => decide (d.1 = e.u ∧ d.2.1 = e.v)) then
      [(e.u, e.v, e.orig, e.inter)]
    else if g.edges.any (fun d => decide (d.1 = e.v ∧ d.2.1 = e.u)) then
      [(e.v, e.u, e.orig, e.inter)]
    else
      [(e.u, e.v, e.orig, e.inter), (e.v, e.u, e.orig, e.inter)])

/-- The connected components of the MST working graph built from `g`. -/
def workingComponents (g : BGraph) : List (List Str) :=
  componentsOfEdges g.ids ((mstGraphEdges g).map MstEdge.pair)

/-- The per-component MSTs of the working graph. -/
def workingMSTs (g : BGraph) : List (List Str × List MstEdge) :=
  componentMSTs (workingComponents g) (mstGraphEdges g)

/-- The component connectors of `g`, sorted by centrality descending. -/
def workingConnectors (g : BGraph) : List (Str × ℚ) :=
  sortConnectorsDesc (componentConnectors (workingMSTs g))

/-- The minimal subgraph (nodes, combined undirected MST edges, directed
reconstruction). -/
structure MinResult where
  nodes : List Str
  mstEdges : List MstEdge
  dirEdges : List (Str × Str × ℚ × Bool)
deriving DecidableEq

/-- `_find_minimal_subgraph`: skipped without centrality scores or nodes;
otherwise the single- or multi-component MST reduction.  (The
`try/except` fallback to top-importance node selection guards against
library exceptions, which the pure embedding cannot raise.) -/
def findMinimalSubgraph (g : BGraph) (centrality : Option CentralityScoreSet) :
    Option MinResult :=
  match centrality with
  | none => none
  | some _ =>
    if g.nodes.length = 0 then none
    else
      let es := mstGraphEdges g
      let comps := componentsOfEdges g.ids (es.map MstEdge.pair)
      let nm :=
        if comps.length = 1 then (g.ids, kruskalMST g.ids es)
        else multiComponentMST comps es
      some ⟨nm.1, nm.2, directedReconstruct g nm.2⟩

/-! ## TopicRelevanceFilter (lines 895-1110) -/

/-- `TopicRelevanceConfig` (the fields the filtering path reads). -/
structure TopicRelevanceConfig where
  relevance_threshold : ℚ
  enable_semantic_filtering : Bool
  max_nodes_before_filtering : Nat
deriving DecidableEq

/-- The environment of external collaborators and their failure modes:
the sentence-transformer similarity (an abstract text-similarity function,
`none` when unavailable), scikit-learn availability, exception flags, and
the `networkx` numeric centrality routines (abstract score maps). -/
structure NlpEnv where
  transformer : Option (Str → Str → ℚ)
  sklearnAvailable : Bool
  encodeFails : Bool
  centralityFails : Bool
  eigenvectorConverges : Bool
  pagerankOf : BGraph → List (Str × ℚ)
  eigenvectorOf : BGraph → List (Str × ℚ)
  betweennessOf : BGraph → List (Str × ℚ)
  closenessOf : BGraph → List (Str × ℚ)
  harmonicOf : BGraph → List (Str × ℚ)

/-- `_calculate_context_relevance_scores` per-node score:
`0.6·word-overlap + 0.3·min(frequency/10, 1) + 0.1·[kind = concept]`,
capped at `1.0`. -/
def contextRelevanceScore (topic label : Str) (frequency : Nat)
    (ntype : Str) : ℚ :=
  let topicWords := pySet (pyWords (pyLower topic))
  let nodeWords := pySet (pyWords (pyLower label))
  let wordOverlap : ℚ :=
    ((topicWords.filter (fun w => decide (w ∈ nodeWords))).length : ℚ) /
      ((max topicWords.length 1 : Nat) : ℚ)
  let frequencyScore : ℚ := min ((frequency : ℚ) / 10) 1
  let typeBonus : ℚ := if ntype = "concept".data then 1 / 10 else 0
  min (wordOverlap * (6 / 10) + frequencyScore * (3 / 10) + typeBonus) 1

/-- `_calculate_context_relevance_scores`: the lexical fallback scores for
every node of the graph. -/
def contextRelevanceScores (g : BGraph) (topic : Str) : List (Str × ℚ) :=
  g.nodes.map (fun n => (n.id, contextRelevanceScore topic n.label n.frequency n.ntype))

/-- `_calculate_topic_relevance_scores`: empty without a transformer or
topic; the lexical fallback when scikit-learn is missing or encoding
fails; otherwise the semantic similarity of `"label type"` vs the topic. -/
def calcTopicRelevanceScores (env : NlpEnv) (g : BGraph) (topic : Str) :
    List (Str × ℚ) :=
  match env.transformer with
  | none => []
  | some sim =>
    if pyStrip topic = [] then []
    else if env.sklearnAvailable = false then contextRelevanceScores g topic
    else if env.encodeFails then contextRelevanceScores g topic
    else g.nodes.map (fun n =>
      (n.id, sim (pyStrip (n.label ++ [' '] ++ n.ntype)) topic))

/-- Sort score pairs by score, highest first (stable, as Python's
`sorted(..., reverse=True)`). -/
def sortByScoreDesc (scores : List (Str × ℚ)) : List (Str × ℚ) :=
  List.insertionSort (fun a b => b.2 ≤ a.2) scores

/-- The keep/remove decision of `_filter_nodes_by_topic_relevance`: drop
nodes scoring below the threshold unless that would keep fewer than
`max(10, int(n*0.1))` nodes, in which case keep exactly that many
top-scoring nodes.  (`int(n*0.1)` equals `n / 10` in `ℕ` for all
realistic `n`.)  Returns `(kept ids, removed ids)`. -/
def filterDecision (scores : List (Str × ℚ)) (thr : ℚ) (n : Nat) :
    List Str × List Str :=
  let keep := (scores.filter (fun p => !decide (p.2 < thr))).map (·.1)
  let remove := (scores.filter (fun p => decide (p.2 < thr))).map (·.1)
  let minKeep := max 10 (n / 10)
  if keep.length < minKeep then
    (((sortByScoreDesc scores).take minKeep).map (·.1),
     ((sortByScoreDesc scores).drop minKeep).map (·.1))
  else (keep, remove)

/-- `graph.remove_nodes_from(rm)`: drop the nodes and all incident edges. -/
def removeNodes (g : BGraph) (rm : List Str) : BGraph :=
  ⟨g.nodes.filter (fun n => !decide (n.id ∈ rm)),
   g.edges.filter (fun e => !decide (e.1 ∈ rm) && !decide (e.2.1 ∈ rm))⟩

/-- Store the relevance score as the `topic_relevance` attribute of every
remaining node that has one. -/
def annotateScores (g : BGraph) (scores : List (Str × ℚ)) : BGraph :=
  { g with nodes := g.nodes.map (fun n =>
      match scores.find? (fun p => decide (p.1 = n.id)) with
      | some p => { n with topic_relevance := some p.2 }
      | none => n) }

/-- `_filter_nodes_by_topic_relevance`: a no-op without a topic, below the
node-count threshold, with filtering disabled, with no scores, or when no
node is slated for removal; otherwise remove the chosen nodes (and their
incident edges) and annotate the remaining nodes with their scores. -/
def filterNodesByTopicRelevance (env : NlpEnv) (cfg : TopicRelevanceConfig)
    (g : BGraph) (topic : Str) : BGraph :=
  if pyStrip topic = [] then g
  else if g.nodes.length < cfg.max_nodes_before_filtering then g
  else if cfg.enable_semantic_filtering = false then g
  else
    let scores := calcTopicRelevanceScores env g topic
    if scores = [] then g
    else
      let rm := (filterDecision scores cfg.relevance_threshold g.nodes.length).2
      if rm = [] then g
      else annotateScores (removeNodes g rm) scores

/-! ## CentralityEngine: `_calculate_centrality_metrics` (lines 625-682) -/

/-- The degree of a node in the directed graph (in-degree plus out-degree). -/
def nodeDegree (g : BGraph) (x : Str) : Nat :=
  (g.edges.filter (fun e => decide (e.1 = x))).length +
  (g.edges.filter (fun e => decide (e.2.1 = x))).length

/-- `nx.degree_centrality`: `degree/(n-1)`, and `1` per node when the
graph has at most one node. -/
def degreeCentrality (g : BGraph) : List (Str × ℚ) :=
  if g.nodes.length ≤ 1 then g.nodes.map (fun n => (n.id, 1))
  else g.nodes.map (fun n =>
    (n.id, (nodeDegree g n.id : ℚ) / ((g.nodes.length : ℚ) - 1)))

/-- Whether the undirected projection of `g` is connected
(`nx.is_connected(self.graph.to_undirected())`). -/
def isConnectedUndirected (g : BGraph) : Bool :=
  decide ((componentsOfEdges g.ids (g.edges.map (fun e => (e.1, e.2.1)))).length = 1)

/-- The mutable builder state threaded through the pipeline steps. -/
structure BuilderState where
  graph : BGraph
  centrality : Option CentralityScoreSet
  minimal : Option MinResult

/-- `_calculate_centrality_metrics`: skip on an empty graph; on an
exception fall back to degree centrality for all four measures; otherwise
weighted PageRank, eigenvector centrality (degree centrality on
non-convergence), betweenness, and closeness (harmonic centrality on a
disconnected graph).  Writes only `self.centrality_scores`. -/
def calculateCentralityMetrics (env : NlpEnv) (st : BuilderState) :
    BuilderState :=
  if st.graph.nodes.length = 0 then st
  else if env.centralityFails then
    let d := degreeCentrality st.graph
    { st with centrality := some ⟨d, d, d, d⟩ }
  else
    let eig :=
      if env.eigenvectorConverges then env.eigenvectorOf st.graph
      else degreeCentrality st.graph
    let clo :=
      if isConnectedUndirected st.graph then env.closenessOf st.graph
      else env.harmonicOf st.graph
    let cs : CentralityScoreSet :=
      ⟨env.pagerankOf st.graph, eig, env.betweennessOf st.graph, clo⟩
    { st with centrality := some cs }

/-! ## Pipeline: `build_graph_from_sources` and
`generate_knowledge_graph_from_sources` (lines 331-411, 1218-1264) -/

/-- The result dictionary returned to the caller. -/
structure KGResult where
  success : Bool
  error : Option Str
  nodes : List Str
  edges : List (Str × Str × Nat)
  minimalNodes : List Str
  minimalEdges : List (Str × Str × ℚ × Bool)
deriving DecidableEq

/-- `_finalize_graph_data`: a success record listing the graph's nodes and
edges and, when a minimal subgraph exists, its nodes (restricted to known
node ids) and directed edges. -/
def finalizeGraphData (st : BuilderState) : KGResult :=
  let ids := st.graph.ids
  match st.minimal with
  | some m =>
    if 0 < m.nodes.length then
      ⟨true, none, ids, st.graph.edges,
       m.nodes.filter (fun x => decide (x ∈ ids)), m.dirEdges⟩
    else ⟨true, none, ids, st.graph.edges, [], []⟩
  | none => ⟨true, none, ids, st.graph.edges, [], []⟩

/-- `build_graph_from_sources`: extraction (an external NLP collaborator,
passed as a function), graph construction, optional topic filtering,
centrality, minimal subgraph, and finalization.  (Embedding generation
does not alter the graph and is omitted from the state.) -/
def buildGraphFromSources (env : NlpEnv) (cfg : TopicRelevanceConfig)
    (extract : List Source → List ExtractedNode × List ExtractedNode)
    (sources : List Source) (topic : Str) : KGResult :=
  let ce := extract sources
  let g1 := buildGraphStructure ce.1 ce.2 sources
  let g2 :=
    if pyStrip topic = [] then g1
    else filterNodesByTopicRelevance env cfg g1 topic
  let st2 := calculateCentralityMetrics env ⟨g2, none, none⟩
  let st3 := { st2 with minimal := findMinimalSubgraph st2.graph st2.centrality }
  finalizeGraphData st3

/-- `generate_knowledge_graph_from_sources`: an explicit failure record
for an empty source list, otherwise the builder pipeline. -/
def generateKnowledgeGraphFromSources (env : NlpEnv)
    (cfg : TopicRelevanceConfig)
    (extract : List Source → List ExtractedNode × List ExtractedNode)
    (sources : List Source) (topic : Str) : KGResult :=
  if sources.isEmpty then
    ⟨false, some "No sources provided".data, [], [], [], []⟩
  else buildGraphFromSources env cfg extract sources topic

/-! ## ConceptDeduplicator: `deduplicate_learning_concepts` and
`_are_similar_concepts` (lines 1793-1958) -/

/-- A learning-concept record as assembled for the learning plan. -/
structure ConceptRecord where
  name : Str
  description : Str
  importance_score : ℚ
  source_references : List Str
  resources : List Str
  time_estimate : Nat
deriving DecidableEq

/-- The fixed synonym-variation table of `_are_similar_concepts`. -/
def variationGroups : List (List Str) :=
  [["method".data, "methods".data, "methodology".data],
   ["technique".data, "techniques".data],
   ["algorithm".data, "algorithms".data],
   ["approach".data, "approaches".data],
   ["concept".data, "concepts".data],
   ["principle".data, "principles".data],
   ["theory".data, "theories".data],
   ["model".data, "models".data, "modeling".data],
   ["analysis".data, "analyses".data],
   ["network".data, "networks".data, "networking".data],
   ["learning".data, "machine learning".data],
   ["data".data, "dataset".data, "datasets".data]]

/-- `_are_similar_concepts` on two normalized (lowercased) names: exact
match, plural `s`, gerund `ing`, the synonym table, `>0.75` Jaccard word
overlap for multi-word names, or `≤5`-character abbreviation containment. -/
def areSimilarConcepts (name1 name2 : Str) : Bool :=
  decide (name1 = name2) ||
  (pyEndsWith name1 "s".data && decide (name1.take (name1.length - 1) = name2)) ||
  (pyEndsWith name2 "s".data && decide (name2.take (name2.length - 1) = name1)) ||
  (pyEndsWith name1 "ing".data && decide (name1.take (name1.length - 3) = name2)) ||
  (pyEndsWith name2 "ing".data && decide (name2.take (name2.length - 3) = name1)) ||
  variationGroups.any (fun grp => decide (name1 ∈ grp) && decide (name2 ∈ grp)) ||
  (let words1 := pySet (pyWords name1)
   let words2 := pySet (pyWords name2)
   if 2 ≤ words1.length ∧ 2 ≤ words2.length then
     let inter := (words1.filter (fun w => decide (w ∈ words2))).length
     let uni := (words1 ++ words2.filter (fun w => !decide (w ∈ words1))).length
     decide ((3 : ℚ) / 4 < (inter : ℚ) / (uni : ℚ))
   else false) ||
  (decide (name1.length ≤ 5) && containsSub (pyUpper name2) (pyUpper name1)) ||
  (decide (name2.length ≤ 5) && containsSub (pyUpper name1) (pyUpper name2))

/-- Merge a duplicate into the kept record on an exact name match: union
the source references (capped at 5), extend the resources (capped at 3),
and keep the larger time estimate.  (Python unions references through an
unordered `set`; the union is modelled order-preserving — the claims do
not depend on reference order.) -/
def mergeExactInto (c existing : ConceptRecord) : ConceptRecord :=
  { existing with
    source_references :=
      ((existing.source_references ++ c.source_references).dedup).take 5
    resources :=
      (c.resources.foldl
        (fun acc r => if r ∈ acc then acc else acc ++ [r])
        existing.resources).take 3
    time_estimate := max existing.time_estimate c.time_estimate }

/-- Merge a fuzzy duplicate into the kept record: union references
(capped at 5), keep the longer name and description, and the larger time
estimate.  `cname` is the stripped incoming name. -/
def fuzzyMergeInto (c : ConceptRecord) (cname : Str)
    (e : ConceptRecord) : ConceptRecord :=
  { e with
    source_references :=
      ((e.source_references ++ c.source_references).dedup).take 5
    name := if e.name.length < cname.length then cname else e.name
    description :=
      if e.description.length < c.description.length then c.description
      else e.description
    time_estimate := max e.time_estimate c.time_estimate }

/-- Apply `f` to the first list element satisfying `pred` (Python's
`for ...: if ...: ...; break` update pattern). -/
def updateFirst (pred : ConceptRecord → Bool) (f : ConceptRecord → ConceptRecord) :
    List ConceptRecord → List ConceptRecord
  | [] => []
  | x :: xs => if pred x then f x :: xs else x :: updateFirst pred f xs

/-- Scan the kept records for the first fuzzy match and merge into it;
returns the updated list and whether a match was found. -/
def fuzzyInsert (c : ConceptRecord) (cname norm : Str) :
    List ConceptRecord → List ConceptRecord × Bool
  | [] => ([], false)
  | e :: es =>
    if areSimilarConcepts norm (pyStrip (pyLower e.name)) then
      (fuzzyMergeInto c cname e :: es, true)
    else
      let r := fuzzyInsert c cname norm es
      (e :: r.1, r.2)

/-- One iteration of the deduplication loop over
`(deduplicated, processed_names)`. -/
def dedupStep (st : List ConceptRecord × List Str) (c : ConceptRecord) :
    List ConceptRecord × List Str :=
  let cname := pyStrip c.name
  if cname = [] then st
  else
    let norm := pyStrip (pyLower cname)
    if norm ∈ st.2 then
      (updateFirst (fun e => decide (pyLower e.name = norm))
        (mergeExactInto c) st.1, st.2)
    else
      let r := fuzzyInsert c cname norm st.1
      if r.2 then (r.1, st.2 ++ [norm])
      else (st.1 ++ [c], st.2 ++ [norm])

/-- Sort records by importance score, highest first (stable, as Python's
`sorted(..., reverse=True)`). -/
def sortByImportanceDesc (cs : List ConceptRecord) : List ConceptRecord :=
  List.insertionSort (fun a b => b.importance_score ≤ a.importance_score) cs

/-- `deduplicate_learning_concepts`. -/
def deduplicateLearningConcepts (cs : List ConceptRecord) : List ConceptRecord :=
  if cs = [] then []
  else ((sortByImportanceDesc cs).foldl dedupStep ([], [])).1

/-- The normalization applied to names for duplicate comparison. -/
def normName (s : Str) : Str := pyStrip (pyLower s)

/-- The fully normalized comparison key of a record's display name
(`concept_name = name.strip(); normalized = concept_name.lower().strip()`). -/
def normKey (r : ConceptRecord) : Str := pyStrip (pyLower (pyStrip r.name))

/-! ## `calculate_enhanced_time_estimate` (lines 1727-1757) -/

/-- `base_times.get(depth, 4)`. -/
def baseTimes (depth : Str) : Nat :=
  if depth = "quick".data then 2
  else if depth = "moderate".data then 4
  else if depth = "comprehensive".data then 8
  else 4

/-- `any(keyword in concept_name for keyword in kws)`. -/
def anyKeyword (name : Str) (kws : List Str) : Bool :=
  kws.any (fun k => containsSub name k)

/-- `calculate_enhanced_time_estimate`: base time by depth, complexity
multiplier from name keywords and resource count, importance multiplier
`1 + 0.3·importance`, truncated to an integer and clamped to `[1, 20]`. -/
def calculateEnhancedTimeEstimate (name : Str) (resourcesCount : Nat)
    (depth : Str) (importanceScore : ℚ) : Int :=
  let baseTime := baseTimes depth
  let cname := pyLower name
  let cm : ℚ :=
    if anyKeyword cname ["theory".data, "framework".data, "methodology".data] then 3 / 2
    else if anyKeyword cname ["method".data, "approach".data, "technique".data] then 13 / 10
    else if anyKeyword cname ["basic".data, "introduction".data, "overview".data] then 4 / 5
    else 1
  let im : ℚ := 1 + importanceScore * (3 / 10)
  let cm2 := if 2 < resourcesCount then cm * (6 / 5) else cm
  let total := pyInt ((baseTime : ℚ) * cm2 * im)
  max 1 (min total 20)

/-! ## Concrete instances used to exercise the definitions -/

/-- An environment with no sentence transformer and inert numeric routines. -/
def exEnvNone : NlpEnv :=
  ⟨none, false, false, false, true,
   fun _ => [], fun _ => [], fun _ => [], fun _ => [], fun _ => []⟩

/-- An environment whose semantic model scores every text pair `1/2`. -/
def exEnvHalf : NlpEnv :=
  ⟨some (fun _ _ => 1 / 2), true, false, false, true,
   fun _ => [], fun _ => [], fun _ => [], fun _ => [], fun _ => []⟩

/-- An environment whose semantic model scores every text pair `0`. -/
def exEnvZero : NlpEnv :=
  ⟨some (fun _ _ => 0), true, false, false, true,
   fun _ => [], fun _ => [], fun _ => [], fun _ => [], fun _ => []⟩

/-- The source defaults: threshold `0.3`, filtering enabled, applied from
1000 nodes. -/
def cfgDefault : TopicRelevanceConfig := ⟨3 / 10, true, 1000⟩

/-- The default configuration with the filtering threshold lowered to
apply from `n` nodes. -/
def cfgFrom (n : Nat) : TopicRelevanceConfig := ⟨3 / 10, true, n⟩

/-- An extraction collaborator returning no concepts and no entities. -/
def exExtractEmpty : List Source → List ExtractedNode × List ExtractedNode :=
  fun _ => ([], [])

/-- The "Neural Networks" concept node of Scenario A. -/
def exNN : ExtractedNode :=
  ⟨"concept_aaaaaaaa".data, "Neural Networks".data, "concept".data, 3, 1, []⟩

/-- The "Deep Learning" concept node of Scenario A. -/
def exDL : ExtractedNode :=
  ⟨"concept_bbbbbbbb".data, "Deep Learning".data, "concept".data, 3, 1, []⟩

/-- Three sources mentioning both labels: accumulated co-occurrence 3. -/
def exSources : List Source :=
  [⟨"Neural Networks intro".data, "deep learning and neural networks".data⟩,
   ⟨"Deep Learning guide".data, "neural networks power deep learning".data⟩,
   ⟨"survey".data, "a survey of deep learning and neural networks".data⟩]

/-- A concept record with the given name and importance and no payload. -/
def mkConcept (name : String) (imp : ℚ) : ConceptRecord :=
  ⟨name.data, [], imp, [], [], 1⟩

/-- Deduplication counterexample input: merging the third record into the
first renames it, making it a fuzzy duplicate of the second. -/
def exConcepts : List ConceptRecord :=
  [mkConcept "deep neural network model" (9 / 10),
   mkConcept "deep neural network models extra" (8 / 10),
   mkConcept "deep neural network models" (7 / 10)]

/-- A graph node with the given id/label. -/
def mkNode (s : String) : NodeRec :=
  ⟨s.data, s.data, "concept".data, 1, 1, [], none⟩

/-- Scenario B working graph: three components of sizes 5, 3 and 2. -/
def exG : BGraph :=
  ⟨["a", "b", "c", "d", "e", "f", "g", "h", "i", "j"].map mkNode,
   [("a".data, "b".data, 2), ("b".data, "c".data, 2), ("c".data, "d".data, 3),
    ("d".data, "e".data, 2), ("f".data, "g".data, 2), ("g".data, "h".data, 4),
    ("i".data, "j".data, 2)]⟩

/-- Eleven isolated nodes (used to drive the retention-floor branch of the
topic filter into an actual removal). -/
def exG11 : BGraph :=
  ⟨["k0", "k1", "k2", "k3", "k4", "k5", "k6", "k7", "k8", "k9", "k10"].map mkNode, []⟩

/-- A single-node graph (used to exhibit a filter run that removes
nothing and therefore annotates nothing). -/
def exG1 : BGraph := ⟨[mkNode "alpha"], []⟩

/-! ## Reachability and the partition invariant -/

/-- Undirected reachability over a list of edge endpoint pairs. -/
inductive Reaches (es : List (Str × Str)) : Str → Str → Prop where
  | refl (u : Str) : Reaches es u u
  | tail {u v x : Str} : Reaches es u v → ((v, x) ∈ es ∨ (x, v) ∈ es) →
      Reaches es u x

/-- The invariant tying a block partition to the processed edges: the
blocks enumerate `nodes`, are nonempty, and two ids share a block exactly
when both are nodes connected by the processed edges. -/
structure PartInv (nodes : List Str) (processed : List (Str × Str))
    (p : List (List Str)) : Prop where
  perm : p.flatten.Perm nodes
  noEmpty : ∀ b ∈ p, b ≠ []
  same_iff : ∀ a b, sameBlockB p a b = true ↔
    (a ∈ nodes ∧ b ∈ nodes ∧ Reaches processed a b)

/-! # Theorems -/

/-- C10: for every concept name, resource count, depth string, and
importance score, the per-concept time estimate returned by
`calculate_enhanced_time_estimate` is an integer between 1 and 20 hours
inclusive. -/
theorem time_estimate_bounds (name : Str) (resourcesCount : Nat)
    (depth : Str) (importanceScore : ℚ) :
    1 ≤ calculateEnhancedTimeEstimate name resourcesCount depth importanceScore ∧
    calculateEnhancedTimeEstimate name resourcesCount depth importanceScore ≤ 20 := by
  unfold calculateEnhancedTimeEstimate
  exact ⟨le_max_left _ _, max_le (by norm_num) (min_le_right _ _)⟩

/-- C8: computing the centrality metrics leaves the graph (nodes, edges,
attributes, weights) unchanged; the only state written is the
`CentralityScoreSet` (and the minimal subgraph slot is untouched). -/
theorem centrality_does_not_mutate_graph (env : NlpEnv) (st : BuilderState) :
    (calculateCentralityMetrics env st).graph = st.graph ∧
    (calculateCentralityMetrics env st).minimal = st.minimal := by
  unfold calculateCentralityMetrics
  split_ifs <;> exact ⟨rfl, rfl⟩

/-- C5 counterexample: with the topic "machine learning", equal
frequencies and equal kinds, the lexical fallback gives "Neural Network"
and "Cooking Recipe" the *same* score (neither label shares a word with
the topic), refuting the claimed strict ordering. -/
theorem contextRelevance_equal_scores_counterexample :
    contextRelevanceScore "machine learning".data "Neural Network".data 5 "concept".data =
      contextRelevanceScore "machine learning".data "Cooking Recipe".data 5 "concept".data ∧
    ¬ (contextRelevanceScore "machine learning".data "Cooking Recipe".data 5 "concept".data <
        contextRelevanceScore "machine learning".data "Neural Network".data 5 "concept".data) :=
  of_decide_eq_true (by with_unfolding_all rfl)

/-- C5 (amended): for equal frequencies and kinds, the lexical fallback
score is strictly monotone in the number of topic words shared with the
node label; "Neural Network" ties with "Cooking Recipe" under the topic
"machine learning" because both overlaps are zero. -/
theorem contextRelevance_overlap_strict_mono (topic l1 l2 : Str) (freq : Nat) (ty : Str)
    (h : ((pySet (pyWords (pyLower topic))).filter
            (fun w => decide (w ∈ pySet (pyWords (pyLower l2))))).length <
         ((pySet (pyWords (pyLower topic))).filter
            (fun w => decide (w ∈ pySet (pyWords (pyLower l1))))).length) :
    contextRelevanceScore topic l2 freq ty < contextRelevanceScore topic l1 freq ty := by
  unfold contextRelevanceScore
  simp only []
  set T := pySet (pyWords (pyLower topic)) with hT
  set c1 := ((pySet (pyWords (pyLower topic))).filter
      (fun w => decide (w ∈ pySet (pyWords (pyLower l1))))).length with hc1def
  set c2 := ((pySet (pyWords (pyLower topic))).filter
      (fun w => decide (w ∈ pySet (pyWords (pyLower l2))))).length with hc2def
  set D : ℚ := ((max T.length 1 : Nat) : ℚ) with hDdef
  have hD : (0 : ℚ) < D := by
    rw [hDdef]
    exact_mod_cast lt_of_lt_of_le one_pos (le_max_right T.length 1)
  have hcle : c1 ≤ max T.length 1 := le_trans (List.length_filter_le _ _) (le_max_left _ _)
  have hov1 : (c1 : ℚ) / D ≤ 1 := by
    rw [div_le_one hD, hDdef]
    exact_mod_cast hcle
  have hlt : (c2 : ℚ) / D < (c1 : ℚ) / D := by
    apply div_lt_div_of_pos_right ?_ hD
    exact_mod_cast h
  have hov2 : (c2 : ℚ) / D < 1 := lt_of_lt_of_le hlt hov1
  set fs := min ((freq : ℚ) / 10) 1 with hfsdef
  have hfs : fs ≤ 1 := min_le_right _ _
  have hb : (if ty = "concept".data then (1 : ℚ) / 10 else 0) ≤ 1 / 10 := by
    split <;> norm_num
  set b := (if ty = "concept".data then (1 : ℚ) / 10 else 0) with hbdef
  have hx2 : (c2 : ℚ) / D * (6 / 10) + fs * (3 / 10) + b < 1 := by
    nlinarith [hfs, hb, hov2]
  have hx21 : (c2 : ℚ) / D * (6 / 10) + fs * (3 / 10) + b <
      (c1 : ℚ) / D * (6 / 10) + fs * (3 / 10) + b := by nlinarith [hlt]
  rw [min_eq_left hx2.le]
  exact lt_min hx21 hx2

/-- C5 witness: "learning theory" shares one topic word with
"machine learning" while "cooking recipe" shares none, so the theorem
applies and gives a strictly higher score at equal frequency and kind. -/
theorem contextRelevance_overlap_strict_mono_witness :
    (((pySet (pyWords (pyLower "machine learning".data))).filter
        (fun w => decide (w ∈ pySet (pyWords (pyLower "cooking recipe".data))))).length <
      ((pySet (pyWords (pyLower "machine learning".data))).filter
        (fun w => decide (w ∈ pySet (pyWords (pyLower "learning theory".data))))).length) ∧
    contextRelevanceScore "machine learning".data "cooking recipe".data 5 "concept".data <
      contextRelevanceScore "machine learning".data "learning theory".data 5 "concept".data :=
  ⟨by decide,
   contextRelevance_overlap_strict_mono "machine learning".data
     "learning theory".data "cooking recipe".data 5 "concept".data (by decide)⟩

/-- Building from no extracted nodes yields the empty graph. -/
theorem buildGraphStructure_nil (sources : List Source) :
    buildGraphStructure [] [] sources = ⟨[], []⟩ := rfl

/-- Relevance scoring over a graph without nodes yields no scores. -/
theorem calcScores_no_nodes (env : NlpEnv) (es : List (Str × Str × Nat)) (topic : Str) :
    calcTopicRelevanceScores env ⟨[], es⟩ topic = [] := by
  unfold calcTopicRelevanceScores contextRelevanceScores
  cases env.transformer <;> simp

/-- The topic filter is the identity on the empty graph. -/
theorem filter_empty_graph (env : NlpEnv) (cfg : TopicRelevanceConfig) (topic : Str) :
    filterNodesByTopicRelevance env cfg ⟨[], []⟩ topic = ⟨[], []⟩ := by
  unfold filterNodesByTopicRelevance
  simp [calcScores_no_nodes]

/-- C2 counterexample: invoking the pipeline with an empty source list
does *not* yield a successful empty graph — it returns a failure record
with `success = False` and the error string `'No sources provided'`. -/
theorem generate_empty_sources_error_counterexample :
    (generateKnowledgeGraphFromSources exEnvNone cfgDefault exExtractEmpty []
        "machine learning".data).success = false ∧
    (generateKnowledgeGraphFromSources exEnvNone cfgDefault exExtractEmpty []
        "machine learning".data).error = some "No sources provided".data := by
  exact ⟨rfl, rfl⟩

/-- C2 (amended): an empty source list returns an explicit error record
(`success=False`, `error='No sources provided'`, empty node/edge lists)
rather than raising; an empty *extracted-node* list (with nonempty
sources) does yield a successful empty graph. -/
theorem generate_empty_extraction_success_empty
    (env : NlpEnv) (cfg : TopicRelevanceConfig)
    (extract : List Source → List ExtractedNode × List ExtractedNode)
    (sources : List Source) (topic : Str)
    (hs : sources ≠ []) (hx : extract sources = ([], [])) :
    (generateKnowledgeGraphFromSources env cfg extract sources topic).success = true ∧
    (generateKnowledgeGraphFromSources env cfg extract sources topic).error = none ∧
    (generateKnowledgeGraphFromSources env cfg extract sources topic).nodes = [] ∧
    (generateKnowledgeGraphFromSources env cfg extract sources topic).edges = [] := by
  unfold generateKnowledgeGraphFromSources
  rw [if_neg (by simp [List.isEmpty_iff, hs])]
  unfold buildGraphFromSources
  rw [hx]
  by_cases ht : pyStrip topic = []
  · simp only [ht, if_pos rfl, buildGraphStructure_nil]
    unfold calculateCentralityMetrics findMinimalSubgraph finalizeGraphData
    simp [BGraph.ids]
  · simp only [if_neg ht, buildGraphStructure_nil, filter_empty_graph]
    unfold calculateCentralityMetrics findMinimalSubgraph finalizeGraphData
    simp [BGraph.ids]

/-- C2 witness: three nonempty sources whose extraction yields no nodes
produce a successful result with empty node and edge lists. -/
theorem generate_empty_extraction_success_empty_witness :
    exSources ≠ [] ∧ exExtractEmpty exSources = ([], []) ∧
    (generateKnowledgeGraphFromSources exEnvNone cfgDefault exExtractEmpty
        exSources "machine learning".data).nodes = [] ∧
    (generateKnowledgeGraphFromSources exEnvNone cfgDefault exExtractEmpty
        exSources "machine learning".data).success = true :=
  ⟨by decide, rfl,
   (generate_empty_extraction_success_empty exEnvNone cfgDefault exExtractEmpty
      exSources "machine learning".data (by decide) rfl).2.2.1,
   (generate_empty_extraction_success_empty exEnvNone cfgDefault exExtractEmpty
      exSources "machine learning".data (by decide) rfl).1⟩

theorem nodup_keys_dictInsert (k v : Str) (d : List (Str × Str))
    (h : (d.map Prod.fst).Nodup) :
    ((dictInsert k v d).map Prod.fst).Nodup := by
  unfold dictInsert
  split_ifs with hp
  · have he : (d.map (fun p => if p.1 == k then (k, v) else p)).map Prod.fst
        = d.map Prod.fst := by
      rw [List.map_map]
      apply List.map_congr_left
      intro p _
      by_cases h1 : p.1 == k
      · simp only [Function.comp, h1, if_pos]
        exact (eq_of_beq h1).symm
      · simp [Function.comp, h1]
    rw [he]; exact h
  · rw [List.map_append]
    simp only [List.map_cons, List.map_nil]
    rw [List.nodup_append]
    refine ⟨h, List.nodup_singleton _, ?_⟩
    intro x hx hxk
    simp only [List.mem_singleton] at hxk
    subst hxk
    simp only [List.any_eq_true, not_exists, not_and] at hp
    simp only [List.mem_map] at hx
    obtain ⟨p, hpd, hpk⟩ := hx
    exact absurd (by simpa [hpk]) (fun hh => (hp p hpd) hh)

theorem nodeLabels_keys_nodup (ns : List ExtractedNode) :
    ((nodeLabels ns).map Prod.fst).Nodup := by
  unfold nodeLabels
  suffices h : ∀ (l : List ExtractedNode) (d : List (Str × Str)),
      (d.map Prod.fst).Nodup →
      ((l.foldl (fun d n => dictInsert n.id n.label d) d).map Prod.fst).Nodup by
    exact h ns [] (by simp)
  intro l
  induction l with
  | nil => intro d hd; exact hd
  | cons n t ih =>
    intro d hd
    exact ih _ (nodup_keys_dictInsert _ _ _ hd)

theorem appearing_nodup (labels : List (Str × Str))
    (h : (labels.map Prod.fst).Nodup) (src : Source) :
    (appearingNodes labels src).Nodup := by
  unfold appearingNodes
  exact ((List.filter_sublist labels).map Prod.fst).nodup h

theorem listPairs_ne {l : List Str} (h : l.Nodup) {a b : Str}
    (hm : (a, b) ∈ listPairs l) : a ≠ b := by
  induction l with
  | nil => cases hm
  | cons x t ih =>
    unfold listPairs at hm
    rcases List.mem_append.mp hm with h1 | h1
    · obtain ⟨y, hy, he⟩ := List.mem_map.mp h1
      injection he with h1 h2
      subst h1; subst h2
      exact fun hxy => (List.nodup_cons.mp h).1 (hxy ▸ hy)
    · exact ih h.of_cons h1


theorem coocCount_symm (labels : List (Str × Str)) (sources : List Source) (u v : Str) :
    coocCount labels sources u v = coocCount labels sources v u := by
  unfold coocCount
  apply List.countP_congr
  intro q _
  simp only [decide_eq_true_eq]
  tauto

theorem coocCount_self (ns : List ExtractedNode) (sources : List Source) (u : Str) :
    coocCount (nodeLabels ns) sources u u = 0 := by
  unfold coocCount
  rw [List.countP_eq_zero]
  intro q hq
  simp only [decide_eq_true_eq, not_or]
  unfold coocPairs at hq
  obtain ⟨s, _, hqs⟩ := List.mem_flatMap.mp hq
  have hne : q.1 ≠ q.2 := by
    have := listPairs_ne (appearing_nodup _ (nodeLabels_keys_nodup ns) s)
      (show (q.1, q.2) ∈ _ from hqs)
    exact this
  constructor
  · rintro ⟨h1, h2⟩; exact hne (h1.trans h2.symm)
  · rintro ⟨h1, h2⟩; exact hne (h1.trans h2.symm)

theorem mem_buildEdges_iff (ns : List ExtractedNode) (sources : List Source)
    (u v : Str) (w : Nat) :
    (u, v, w) ∈ buildEdges ns sources ↔
    (u ∈ (nodeLabels ns).map Prod.fst ∧ v ∈ (nodeLabels ns).map Prod.fst ∧
     w = coocCount (nodeLabels ns) sources u v ∧ 2 ≤ w) := by
  unfold buildEdges
  have hconv : ((nodeLabels ns).map (fun x => x.1)).product
      ((nodeLabels ns).map (fun x => x.1)) =
      ((nodeLabels ns).map (fun x => x.1)) ×ˢ ((nodeLabels ns).map (fun x => x.1)) := rfl
  simp only [hconv, List.mem_filterMap]
  constructor
  · rintro ⟨p, hp, hf⟩
    obtain ⟨hp1, hp2⟩ := List.mem_product.mp (by exact hp)
    split_ifs at hf with hw
    · rw [Option.some.injEq, Prod.mk.injEq, Prod.mk.injEq] at hf
      obtain ⟨h1, h2, h3⟩ := hf
      subst h1; subst h2; subst h3
      exact ⟨hp1, hp2, rfl, hw⟩
  · rintro ⟨hu, hv, hw, h2⟩
    refine ⟨(u, v), List.mem_product.mpr ⟨hu, hv⟩, ?_⟩
    subst hw
    rw [if_pos h2]

/-- C9: in every graph produced by the graph-construction step, directed
edges come in symmetric pairs — `(u,v,w)` present iff `(v,u,w)` is — and
no edge is a self-loop. -/
theorem buildEdges_symmetric_no_self_loops (ns : List ExtractedNode)
    (sources : List Source) (u v : Str) (w : Nat)
    (h : (u, v, w) ∈ buildEdges ns sources) :
    (v, u, w) ∈ buildEdges ns sources ∧ u ≠ v := by
  obtain ⟨hu, hv, hw, h2⟩ := (mem_buildEdges_iff ns sources u v w).mp h
  constructor
  · exact (mem_buildEdges_iff ns sources v u w).mpr
      ⟨hv, hu, by rw [hw, coocCount_symm], h2⟩
  · rintro rfl
    rw [hw, coocCount_self] at h2
    exact absurd h2 (by norm_num)

theorem countP_key_filterMap (labels : List (Str × Str)) (sources : List Source)
    (u v : Str) (hw2 : 2 ≤ coocCount labels sources u v) (l : List (Str × Str)) :
    (l.filterMap (fun p =>
        if 2 ≤ coocCount labels sources p.1 p.2 then
          some (p.1, p.2, coocCount labels sources p.1 p.2) else none)).countP
      (fun e => decide (e.1 = u ∧ e.2.1 = v)) =
      l.countP (fun p => decide (p = (u, v))) := by
  induction l with
  | nil => rfl
  | cons p t ih =>
    rw [List.filterMap_cons]
    by_cases hp : p = (u, v)
    · subst hp
      rw [if_pos hw2, List.countP_cons_of_pos _ _ (by simp),
        List.countP_cons_of_pos _ _ (by simp), ih]
    · have hne : ¬ (p.1 = u ∧ p.2 = v) := by
        intro hc
        exact hp (Prod.ext hc.1 hc.2)
      split_ifs with hg
      · rw [List.countP_cons_of_neg _ _ (by simpa using hne),
          List.countP_cons_of_neg _ _ (by simpa using hp), ih]
      · rw [List.countP_cons_of_neg _ _ (by simpa using hp), ih]

theorem countP_eq_one_of_nodup_mem {l : List (Str × Str)} (hl : l.Nodup)
    {a : Str × Str} (ha : a ∈ l) :
    l.countP (fun x => decide (x = a)) = 1 := by
  induction l with
  | nil => cases ha
  | cons x t ih =>
    rcases List.mem_cons.mp ha with rfl | hat
    · rw [List.countP_cons_of_pos _ _ (by simp)]
      have : t.countP (fun x => decide (x = a)) = 0 := by
        rw [List.countP_eq_zero]
        intro b hb
        simp only [decide_eq_true_eq]
        rintro rfl
        exact (List.nodup_cons.mp hl).1 hb
      rw [this]
    · rw [List.countP_cons_of_neg _ _ ?_, ih (List.nodup_cons.mp hl).2 hat]
      simp only [decide_eq_true_eq]
      rintro rfl
      exact (List.nodup_cons.mp hl).1 hat

/-- C1 (amended): for every pair of distinct node ids with accumulated
co-occurrence count `w ≥ 2`, the builder creates exactly one directed
edge *per ordered direction* — `(u,v)` once and `(v,u)` once, each with
weight `w` — i.e. exactly two directed edges between the two nodes, not
one. -/
theorem buildEdges_one_edge_per_direction (ns : List ExtractedNode)
    (sources : List Source) (u v : Str) (w : Nat)
    (hu : u ∈ (nodeLabels ns).map (fun x => x.1))
    (hv : v ∈ (nodeLabels ns).map (fun x => x.1))
    (hw : coocCount (nodeLabels ns) sources u v = w) (h2 : 2 ≤ w) :
    ((buildEdges ns sources).countP (fun e => decide (e.1 = u ∧ e.2.1 = v)) = 1 ∧
     (buildEdges ns sources).countP (fun e => decide (e.1 = v ∧ e.2.1 = u)) = 1) ∧
    (u, v, w) ∈ buildEdges ns sources ∧ (v, u, w) ∈ buildEdges ns sources := by
  subst hw
  have hnd := nodeLabels_keys_nodup ns
  have hprod : (((nodeLabels ns).map Prod.fst) ×ˢ ((nodeLabels ns).map Prod.fst)).Nodup :=
    List.Nodup.product hnd hnd
  refine ⟨⟨?_, ?_⟩, ?_, ?_⟩
  · have hcp := countP_key_filterMap (nodeLabels ns) sources u v h2
      (((nodeLabels ns).map (fun x => x.1)).product ((nodeLabels ns).map (fun x => x.1)))
    calc (buildEdges ns sources).countP (fun e => decide (e.1 = u ∧ e.2.1 = v))
        = (((nodeLabels ns).map (fun x => x.1)).product
            ((nodeLabels ns).map (fun x => x.1))).countP
              (fun p => decide (p = (u, v))) := hcp
      _ = 1 := countP_eq_one_of_nodup_mem hprod (List.mem_product.mpr ⟨hu, hv⟩)
  · have h2s : 2 ≤ coocCount (nodeLabels ns) sources v u := by
      rw [coocCount_symm]; exact h2
    have hcp := countP_key_filterMap (nodeLabels ns) sources v u h2s
      (((nodeLabels ns).map (fun x => x.1)).product ((nodeLabels ns).map (fun x => x.1)))
    calc (buildEdges ns sources).countP (fun e => decide (e.1 = v ∧ e.2.1 = u))
        = (((nodeLabels ns).map (fun x => x.1)).product
            ((nodeLabels ns).map (fun x => x.1))).countP
              (fun p => decide (p = (v, u))) := hcp
      _ = 1 := countP_eq_one_of_nodup_mem hprod (List.mem_product.mpr ⟨hv, hu⟩)
  · exact (mem_buildEdges_iff ns sources u v _).mpr ⟨hu, hv, rfl, h2⟩
  · exact (mem_buildEdges_iff ns sources v u _).mpr
      ⟨hv, hu, by rw [coocCount_symm], h2⟩

/-- C1 counterexample: for the "Neural Networks"/"Deep Learning" nodes
with accumulated co-occurrence 3, the built graph contains *two* directed
edges between the two nodes (one per direction, both of weight 3), not
exactly one edge. -/
theorem buildEdges_two_directed_edges_counterexample :
    (buildEdges [exNN, exDL] exSources).countP
      (fun e => decide ((e.1 = exNN.id ∧ e.2.1 = exDL.id) ∨
        (e.1 = exDL.id ∧ e.2.1 = exNN.id))) = 2 ∧
    (exNN.id, exDL.id, 3) ∈ buildEdges [exNN, exDL] exSources ∧
    (exDL.id, exNN.id, 3) ∈ buildEdges [exNN, exDL] exSources := by decide


/-- C9 witness: instantiating the symmetry/no-self-loop theorem on the
Scenario-A edge `(NN, DL, 3)`. -/
theorem buildEdges_symmetric_no_self_loops_witness :
    (exNN.id, exDL.id, 3) ∈ buildEdges [exNN, exDL] exSources ∧
    ((exDL.id, exNN.id, 3) ∈ buildEdges [exNN, exDL] exSources ∧
      exNN.id ≠ exDL.id) :=
  ⟨by decide,
   buildEdges_symmetric_no_self_loops [exNN, exDL] exSources exNN.id exDL.id 3
     (by decide)⟩

/-- C1 witness: the amended per-direction uniqueness at the Scenario-A
input with co-occurrence count 3. -/
theorem buildEdges_one_edge_per_direction_witness :
    coocCount (nodeLabels [exNN, exDL]) exSources exNN.id exDL.id = 3 ∧
    ((((buildEdges [exNN, exDL] exSources).countP
          (fun e => decide (e.1 = exNN.id ∧ e.2.1 = exDL.id)) = 1 ∧
       (buildEdges [exNN, exDL] exSources).countP
          (fun e => decide (e.1 = exDL.id ∧ e.2.1 = exNN.id)) = 1) ∧
      (exNN.id, exDL.id, 3) ∈ buildEdges [exNN, exDL] exSources ∧
      (exDL.id, exNN.id, 3) ∈ buildEdges [exNN, exDL] exSources)) :=
  ⟨by decide,
   buildEdges_one_edge_per_direction [exNN, exDL] exSources exNN.id exDL.id 3
     (by decide) (by decide) (by decide) (by decide)⟩

theorem calcScores_keys (env : NlpEnv) (g : BGraph) (topic : Str) :
    calcTopicRelevanceScores env g topic = [] ∨
    (calcTopicRelevanceScores env g topic).map Prod.fst = g.ids := by
  unfold calcTopicRelevanceScores contextRelevanceScores BGraph.ids
  cases env.transformer with
  | none => exact Or.inl rfl
  | some sim =>
    simp only []
    split_ifs
    · exact Or.inl rfl
    · right; rw [List.map_map]; rfl
    · right; rw [List.map_map]; rfl
    · right; rw [List.map_map]; rfl

theorem annotateScores_ids (g : BGraph) (scores : List (Str × ℚ)) :
    (annotateScores g scores).ids = g.ids := by
  unfold annotateScores BGraph.ids
  simp only [List.map_map]
  apply List.map_congr_left
  intro n _
  simp only [Function.comp]
  cases h : scores.find? (fun p => decide (p.1 = n.id)) <;> rfl

theorem filter_reaches_removal (env : NlpEnv) (cfg : TopicRelevanceConfig)
    (g : BGraph) (topic : Str)
    (ht : ¬ pyStrip topic = [])
    (hn : cfg.max_nodes_before_filtering ≤ g.nodes.length)
    (he : cfg.enable_semantic_filtering = true)
    (hsc : ¬ calcTopicRelevanceScores env g topic = [])
    (hrm : ¬ (filterDecision (calcTopicRelevanceScores env g topic)
        cfg.relevance_threshold g.nodes.length).2 = []) :
    filterNodesByTopicRelevance env cfg g topic =
      annotateScores
        (removeNodes g ((filterDecision (calcTopicRelevanceScores env g topic)
          cfg.relevance_threshold g.nodes.length).2))
        (calcTopicRelevanceScores env g topic) := by
  unfold filterNodesByTopicRelevance
  rw [if_neg ht, if_neg (by omega), if_neg (by simp [he])]
  simp only []
  rw [if_neg hsc, if_neg hrm]

/-- C7 (amended): when a filter run reaches the scoring step *and at
least one node is slated for removal*, every surviving node is annotated
with its `topic_relevance` score, and the removed nodes together with all
their incident edges are deleted from the graph.  (When nothing is
removed, the source skips the annotation loop entirely — see the
counterexample.) -/
theorem filter_removal_annotates_and_deletes (env : NlpEnv)
    (cfg : TopicRelevanceConfig) (g : BGraph) (topic : Str)
    (ht : ¬ pyStrip topic = [])
    (hn : cfg.max_nodes_before_filtering ≤ g.nodes.length)
    (he : cfg.enable_semantic_filtering = true)
    (hsc : ¬ calcTopicRelevanceScores env g topic = [])
    (hrm : ¬ (filterDecision (calcTopicRelevanceScores env g topic)
        cfg.relevance_threshold g.nodes.length).2 = []) :
    (∀ n ∈ (filterNodesByTopicRelevance env cfg g topic).nodes,
      ∃ q ∈ calcTopicRelevanceScores env g topic,
        q.1 = n.id ∧ n.topic_relevance = some q.2) ∧
    (filterNodesByTopicRelevance env cfg g topic).ids =
      g.ids.filter (fun x => !decide (x ∈
        (filterDecision (calcTopicRelevanceScores env g topic)
          cfg.relevance_threshold g.nodes.length).2)) ∧
    (filterNodesByTopicRelevance env cfg g topic).edges =
      g.edges.filter (fun e => !decide (e.1 ∈
          (filterDecision (calcTopicRelevanceScores env g topic)
            cfg.relevance_threshold g.nodes.length).2) &&
        !decide (e.2.1 ∈
          (filterDecision (calcTopicRelevanceScores env g topic)
            cfg.relevance_threshold g.nodes.length).2)) := by
  rw [filter_reaches_removal env cfg g topic ht hn he hsc hrm]
  set scores := calcTopicRelevanceScores env g topic with hscdef
  set rm := (filterDecision scores cfg.relevance_threshold g.nodes.length).2 with hrmdef
  have hkeys : scores.map Prod.fst = g.ids :=
    (calcScores_keys env g topic).resolve_left hsc
  refine ⟨?_, ?_, rfl⟩
  · intro n hn'
    unfold annotateScores at hn'
    simp only [List.mem_map] at hn'
    obtain ⟨m, hm, hmeq⟩ := hn'
    have hmid : m.id ∈ g.ids := by
      unfold removeNodes at hm
      exact List.mem_map.mpr ⟨m, List.mem_of_mem_filter hm, rfl⟩
    have hkey : ∃ q ∈ scores, q.1 = m.id := by
      rw [← hkeys] at hmid
      obtain ⟨q, hq, hq1⟩ := List.mem_map.mp hmid
      exact ⟨q, hq, hq1⟩
    obtain ⟨q0, hq0, hq01⟩ := hkey
    have hfind : scores.find? (fun p => decide (p.1 = m.id)) ≠ none := by
      intro hnone
      rw [List.find?_eq_none] at hnone
      have hq0m := hnone q0 hq0
      simp only [decide_eq_true_eq] at hq0m
      exact hq0m hq01
    obtain ⟨q, hfq⟩ := Option.ne_none_iff_exists'.mp hfind
    rw [hfq] at hmeq
    refine ⟨q, List.mem_of_find?_eq_some hfq, ?_, ?_⟩
    · have := List.find?_some hfq
      simp only [decide_eq_true_eq] at this
      rw [← hmeq]
      exact this
    · rw [← hmeq]
  · rw [annotateScores_ids]
    unfold removeNodes BGraph.ids
    simp only []
    rw [List.filter_map]
    rfl


theorem keys_inj (scores : List (Str × ℚ)) (hkn : (scores.map Prod.fst).Nodup)
    {p q : Str × ℚ} (hp : p ∈ scores) (hq : q ∈ scores) (h : p.1 = q.1) : p = q :=
  List.inj_on_of_nodup_map hkn hp hq h

theorem removeNodes_ids (g : BGraph) (rm : List Str) :
    (removeNodes g rm).ids = g.ids.filter (fun x => !decide (x ∈ rm)) := by
  unfold removeNodes BGraph.ids
  simp only []
  rw [List.filter_map]
  rfl

theorem floor_branch_ids (g : BGraph) (scores : List (Str × ℚ)) (m : Nat)
    (hnd : g.ids.Nodup) (hkeys : scores.map Prod.fst = g.ids) (hm : m ≤ scores.length) :
    (g.ids.filter (fun x =>
        !decide (x ∈ ((sortByScoreDesc scores).drop m).map Prod.fst))).length = m ∧
    (∀ x, x ∈ g.ids.filter (fun x =>
        !decide (x ∈ ((sortByScoreDesc scores).drop m).map Prod.fst)) ↔
      x ∈ ((sortByScoreDesc scores).take m).map Prod.fst) := by
  set sorted := sortByScoreDesc scores with hsorted
  set dropKeys := (sorted.drop m).map Prod.fst with hdk
  set takeKeys := (sorted.take m).map Prod.fst with htk
  set q : Str → Bool := fun x => !decide (x ∈ dropKeys) with hq
  have hperm1 : sorted.Perm scores := List.perm_insertionSort _ scores
  have hpermk : (sorted.map Prod.fst).Perm g.ids := by
    rw [← hkeys]
    exact hperm1.map Prod.fst
  have hsplit : takeKeys ++ dropKeys = sorted.map Prod.fst := by
    rw [htk, hdk, ← List.map_append, List.take_append_drop]
  have hknd : (takeKeys ++ dropKeys).Nodup := by
    rw [hsplit]
    exact hpermk.nodup_iff.mpr hnd
  obtain ⟨hnd1, hnd2, hdisj⟩ := List.nodup_append.mp hknd
  have h4 : takeKeys.filter q = takeKeys := by
    rw [List.filter_eq_self]
    intro x hx
    simp only [hq, Bool.not_eq_true', decide_eq_false_iff_not]
    exact hdisj hx
  have h5 : dropKeys.filter q = [] := by
    rw [List.filter_eq_nil]
    intro x hx
    simp only [hq, Bool.not_eq_true', decide_eq_false_iff_not, not_not]
    exact hx
  have hP : (g.ids.filter q).Perm takeKeys := by
    have h1 : (g.ids.filter q).Perm ((sorted.map Prod.fst).filter q) :=
      (hpermk.symm).filter q
    rw [← hsplit, List.filter_append, h4, h5, List.append_nil] at h1
    exact h1
  have hlen : takeKeys.length = m := by
    rw [htk, List.length_map, List.length_take]
    rw [hperm1.length_eq]
    exact min_eq_left hm
  exact ⟨by rw [hP.length_eq, hlen], fun x => hP.mem_iff⟩


theorem threshold_branch_ids (g : BGraph) (scores : List (Str × ℚ)) (thr : ℚ)
    (hnd : g.ids.Nodup) (hkeys : scores.map Prod.fst = g.ids) :
    g.ids.filter (fun x =>
        !decide (x ∈ (scores.filter (fun p => decide (p.2 < thr))).map Prod.fst)) =
      (scores.filter (fun p => !decide (p.2 < thr))).map Prod.fst := by
  have hknd : (scores.map Prod.fst).Nodup := by rw [hkeys]; exact hnd
  rw [← hkeys, List.filter_map]
  congr 1
  apply List.filter_congr
  intro p hp
  show (!decide (p.1 ∈ (scores.filter (fun r => decide (r.2 < thr))).map Prod.fst)) =
    !decide (p.2 < thr)
  have hiff : p.1 ∈ (scores.filter (fun r => decide (r.2 < thr))).map Prod.fst ↔
      p.2 < thr := by
    constructor
    · intro hx
      obtain ⟨r, hr, hr1⟩ := List.mem_map.mp hx
      have hrs := List.mem_of_mem_filter hr
      have hrlt := List.of_mem_filter hr
      simp only [decide_eq_true_eq] at hrlt
      have : r = p := keys_inj scores hknd hrs hp hr1
      rw [← this]
      exact hrlt
    · intro hlt
      exact List.mem_map.mpr ⟨p, List.mem_filter.mpr ⟨hp, by simpa using hlt⟩, rfl⟩
  rw [decide_eq_decide.mpr hiff]


theorem ids_length (g : BGraph) : g.ids.length = g.nodes.length :=
  List.length_map _ _

/-- C3: whenever the node count is at or above the (at-least-10)
filtering threshold, the node count after `TopicRelevanceFilter` is at
least `max(10, n/10)`; and when dropping all below-threshold nodes would
retain fewer than that floor, exactly the floor number of top-scoring
nodes is kept. -/
theorem filter_retention_floor (env : NlpEnv) (cfg : TopicRelevanceConfig)
    (g : BGraph) (topic : Str)
    (hnd : g.ids.Nodup)
    (hthr : 10 ≤ cfg.max_nodes_before_filtering)
    (hn : cfg.max_nodes_before_filtering ≤ g.nodes.length) :
    max 10 (g.nodes.length / 10) ≤
      (filterNodesByTopicRelevance env cfg g topic).nodes.length ∧
    (¬ pyStrip topic = [] → cfg.enable_semantic_filtering = true →
      ¬ calcTopicRelevanceScores env g topic = [] →
      ((calcTopicRelevanceScores env g topic).filter
          (fun p => !decide (p.2 < cfg.relevance_threshold))).length <
        max 10 (g.nodes.length / 10) →
      (filterNodesByTopicRelevance env cfg g topic).nodes.length =
        max 10 (g.nodes.length / 10) ∧
      (∀ x, x ∈ (filterNodesByTopicRelevance env cfg g topic).ids ↔
        x ∈ ((sortByScoreDesc (calcTopicRelevanceScores env g topic)).take
          (max 10 (g.nodes.length / 10))).map Prod.fst)) := by
  have hminle : max 10 (g.nodes.length / 10) ≤ g.nodes.length :=
    max_le (le_trans hthr hn) (Nat.div_le_self _ _)
  by_cases ht : pyStrip topic = []
  · constructor
    · unfold filterNodesByTopicRelevance
      rw [if_pos ht]
      exact hminle
    · intro ht' _ _ _
      exact absurd ht ht'
  by_cases he : cfg.enable_semantic_filtering = false
  · have hg : filterNodesByTopicRelevance env cfg g topic = g := by
      unfold filterNodesByTopicRelevance
      rw [if_neg ht, if_neg (by omega), if_pos he]
    constructor
    · rw [hg]; exact hminle
    · intro _ he' _ _
      rw [he'] at he
      cases he
  have he' : cfg.enable_semantic_filtering = true := by
    cases h : cfg.enable_semantic_filtering
    · exact absurd h he
    · rfl
  by_cases hsc : calcTopicRelevanceScores env g topic = []
  · have hg : filterNodesByTopicRelevance env cfg g topic = g := by
      unfold filterNodesByTopicRelevance
      rw [if_neg ht, if_neg (by omega), if_neg (by simp [he'])]
      simp only []
      rw [if_pos hsc]
    constructor
    · rw [hg]; exact hminle
    · intro _ _ hsc' _
      exact absurd hsc hsc'
  -- the run reaches the scoring step
  set scores := calcTopicRelevanceScores env g topic with hscdef
  have hkeys : scores.map Prod.fst = g.ids :=
    (calcScores_keys env g topic).resolve_left hsc
  have hslen : scores.length = g.nodes.length := by
    rw [← ids_length g, ← hkeys, List.length_map]
  set minKeep := max 10 (g.nodes.length / 10) with hmk
  set keep := scores.filter (fun p => !decide (p.2 < cfg.relevance_threshold)) with hkeep
  set rmv := scores.filter (fun p => decide (p.2 < cfg.relevance_threshold)) with hrmv
  have hdec : filterDecision scores cfg.relevance_threshold g.nodes.length =
      if keep.length < minKeep then
        (((sortByScoreDesc scores).take minKeep).map Prod.fst,
         ((sortByScoreDesc scores).drop minKeep).map Prod.fst)
      else (keep.map Prod.fst, rmv.map Prod.fst) := by
    unfold filterDecision
    simp only [← hkeep, ← hrmv, ← hmk, List.length_map]
  by_cases hfl : (keep.map Prod.fst).length < minKeep
  · -- retention-floor branch
    have hfl' : keep.length < minKeep := by
      rw [← List.length_map keep Prod.fst]
      exact hfl
    have hrm2 : (filterDecision scores cfg.relevance_threshold g.nodes.length).2 =
        ((sortByScoreDesc scores).drop minKeep).map Prod.fst := by
      rw [hdec, if_pos hfl']
    have hfb := floor_branch_ids g scores minKeep hnd hkeys (by rw [hslen]; exact hminle)
    by_cases hrm : (filterDecision scores cfg.relevance_threshold g.nodes.length).2 = []
    · -- nothing slated for removal: the graph is returned unchanged, and
      -- the floor equals the node count
      have hg : filterNodesByTopicRelevance env cfg g topic = g := by
        unfold filterNodesByTopicRelevance
        rw [if_neg ht, if_neg (by omega), if_neg (by simp [he'])]
        simp only []
        rw [if_neg hsc, if_pos hrm]
      have hdropnil : ((sortByScoreDesc scores).drop minKeep).map Prod.fst = [] := by
        rw [← hrm2]; exact hrm
      have hdnil : (sortByScoreDesc scores).drop minKeep = [] :=
        List.map_eq_nil.mp hdropnil
      have hslen2 : (sortByScoreDesc scores).length ≤ minKeep := by
        rw [← List.drop_eq_nil_iff_le]
        exact hdnil
      have hneq : g.nodes.length = minKeep := by
        have h1 : (sortByScoreDesc scores).length = scores.length :=
          (List.perm_insertionSort _ scores).length_eq
        omega
      constructor
      · rw [hg]; omega
      · intro _ _ _ _
        refine ⟨by rw [hg]; omega, ?_⟩
        intro x
        rw [hg]
        have htake : (sortByScoreDesc scores).take minKeep = sortByScoreDesc scores :=
          List.take_of_length_le hslen2
        rw [htake]
        have hpm : ((sortByScoreDesc scores).map Prod.fst).Perm g.ids := by
          rw [← hkeys]
          exact (List.perm_insertionSort _ scores).map Prod.fst
        exact (hpm.mem_iff).symm
    · have hg := filter_reaches_removal env cfg g topic ht (by omega) he' hsc hrm
      have hids : (filterNodesByTopicRelevance env cfg g topic).ids =
          g.ids.filter (fun x =>
            !decide (x ∈ ((sortByScoreDesc scores).drop minKeep).map Prod.fst)) := by
        rw [hg, annotateScores_ids, removeNodes_ids, hrm2]
      constructor
      · rw [← ids_length, hids, hfb.1]
      · intro _ _ _ _
        refine ⟨by rw [← ids_length, hids, hfb.1], ?_⟩
        intro x
        rw [hids]
        exact hfb.2 x
  · -- plain threshold branch: at least `keep` many nodes survive
    have hfl' : ¬ keep.length < minKeep := by
      rw [← List.length_map keep Prod.fst]
      exact hfl
    have hrm2 : (filterDecision scores cfg.relevance_threshold g.nodes.length).2 =
        rmv.map Prod.fst := by
      rw [hdec, if_neg hfl']
    by_cases hrm : (filterDecision scores cfg.relevance_threshold g.nodes.length).2 = []
    · have hg : filterNodesByTopicRelevance env cfg g topic = g := by
        unfold filterNodesByTopicRelevance
        rw [if_neg ht, if_neg (by omega), if_neg (by simp [he'])]
        simp only []
        rw [if_neg hsc, if_pos hrm]
      constructor
      · rw [hg]; exact hminle
      · intro _ _ _ hlt
        exact absurd hlt hfl'
    · have hg := filter_reaches_removal env cfg g topic ht (by omega) he' hsc hrm
      have hids : (filterNodesByTopicRelevance env cfg g topic).ids =
          keep.map Prod.fst := by
        rw [hg, annotateScores_ids, removeNodes_ids, hrm2, hkeep, hrmv]
        exact threshold_branch_ids g scores cfg.relevance_threshold hnd hkeys
      constructor
      · rw [← ids_length, hids]
        omega
      · intro _ _ _ hlt
        exact absurd hlt hfl'



/-- C7 counterexample: a run that reaches the scoring step but removes no
node (every score meets the threshold floor logic) leaves every surviving
node *without* a `topic_relevance` annotation. -/
theorem filter_no_annotation_counterexample :
    ¬ calcTopicRelevanceScores exEnvHalf exG1 "machine learning".data = [] ∧
    (filterNodesByTopicRelevance exEnvHalf (cfgFrom 1) exG1
        "machine learning".data).nodes = exG1.nodes ∧
    ∀ n ∈ (filterNodesByTopicRelevance exEnvHalf (cfgFrom 1) exG1
        "machine learning".data).nodes, n.topic_relevance = none :=
  of_decide_eq_true (by with_unfolding_all rfl)

/-- C7 witness: on eleven zero-scored isolated nodes the retention floor
removes one node, and the theorem yields annotated survivors. -/
theorem filter_removal_annotates_and_deletes_witness :
    ¬ (filterDecision (calcTopicRelevanceScores exEnvZero exG11
          "machine learning".data)
        (cfgFrom 11).relevance_threshold exG11.nodes.length).2 = [] ∧
    (∀ n ∈ (filterNodesByTopicRelevance exEnvZero (cfgFrom 11) exG11
        "machine learning".data).nodes,
      ∃ q ∈ calcTopicRelevanceScores exEnvZero exG11 "machine learning".data,
        q.1 = n.id ∧ n.topic_relevance = some q.2) :=
  ⟨of_decide_eq_true (by with_unfolding_all rfl),
   (filter_removal_annotates_and_deletes exEnvZero (cfgFrom 11) exG11
      "machine learning".data (by decide) (by decide) rfl
      (of_decide_eq_true (by with_unfolding_all rfl))
      (of_decide_eq_true (by with_unfolding_all rfl))).1⟩

/-- C3 witness: ten nodes at threshold ten keep at least
`max(10, 10/10) = 10` nodes after filtering. -/
theorem filter_retention_floor_witness :
    exG.ids.Nodup ∧ 10 ≤ (cfgFrom 10).max_nodes_before_filtering ∧
    (cfgFrom 10).max_nodes_before_filtering ≤ exG.nodes.length ∧
    max 10 (exG.nodes.length / 10) ≤
      (filterNodesByTopicRelevance exEnvHalf (cfgFrom 10) exG
        "machine learning".data).nodes.length :=
  ⟨by decide, by decide, by decide,
   (filter_retention_floor exEnvHalf (cfgFrom 10) exG "machine learning".data
      (by decide) (by decide) (by decide)).1⟩

theorem dropWhile_idem (p : Char → Bool) (l : Str) :
    (l.dropWhile p).dropWhile p = l.dropWhile p := by
  induction l with
  | nil => rfl
  | cons c t ih =>
    rw [List.dropWhile_cons]
    split_ifs with hc
    · exact ih
    · rw [List.dropWhile_cons, if_neg hc]

theorem prefix_noLead {p : Char → Bool} {l m : Str}
    (hl : l.dropWhile p = l) (hm : m <+: l) : m.dropWhile p = m := by
  cases m with
  | nil => rfl
  | cons c t =>
    obtain ⟨rest, hrest⟩ := hm
    subst hrest
    rw [List.cons_append] at hl
    rw [List.dropWhile_cons] at hl ⊢
    split_ifs at hl ⊢ with hc
    · exfalso
      have h1 : (List.dropWhile p (t ++ rest)).length ≤ (t ++ rest).length :=
        (List.dropWhile_suffix p).length_le
      have h2 : (List.dropWhile p (t ++ rest)).length = (c :: (t ++ rest)).length := by
        rw [hl]
      rw [List.length_cons] at h2
      omega
    · rfl

theorem pyStrip_prefix_dropWhile (s : Str) :
    pyStrip s <+: s.dropWhile Char.isWhitespace := by
  unfold pyStrip
  rw [← List.reverse_reverse (s.dropWhile Char.isWhitespace)]
  rw [List.reverse_prefix]
  rw [List.reverse_reverse]
  exact List.dropWhile_suffix _

theorem pyStrip_noLead (s : Str) :
    (pyStrip s).dropWhile Char.isWhitespace = pyStrip s :=
  prefix_noLead (dropWhile_idem _ s) (pyStrip_prefix_dropWhile s)

theorem pyStrip_rev_noLead (s : Str) :
    (pyStrip s).reverse.dropWhile Char.isWhitespace = (pyStrip s).reverse := by
  unfold pyStrip
  rw [List.reverse_reverse]
  exact dropWhile_idem _ _

theorem pyStrip_idem (s : Str) : pyStrip (pyStrip s) = pyStrip s := by
  conv_lhs => rw [pyStrip]
  rw [pyStrip_noLead, pyStrip_rev_noLead, List.reverse_reverse]


theorem updateFirst_map_normKey (pred : ConceptRecord → Bool)
    (f : ConceptRecord → ConceptRecord) (l : List ConceptRecord)
    (hf : ∀ e, normKey (f e) = normKey e) :
    (updateFirst pred f l).map normKey = l.map normKey := by
  induction l with
  | nil => rfl
  | cons x xs ih =>
    unfold updateFirst
    split_ifs
    · simp only [List.map_cons, hf x]
    · simp only [List.map_cons, ih]

theorem fuzzyInsert_false (c : ConceptRecord) (cname norm : Str)
    (l : List ConceptRecord) (h : (fuzzyInsert c cname norm l).2 = false) :
    (fuzzyInsert c cname norm l).1 = l := by
  induction l with
  | nil => rfl
  | cons e es ih =>
    unfold fuzzyInsert at h ⊢
    by_cases hsim : areSimilarConcepts norm (pyStrip (pyLower e.name)) = true
    · rw [if_pos hsim] at h
      simp at h
    · rw [if_neg hsim] at h ⊢
      have hres := ih (by simpa using h)
      simp [hres]

theorem normKey_fuzzyMergeInto (c : ConceptRecord) (cname : Str) (e : ConceptRecord) :
    normKey (fuzzyMergeInto c cname e) =
      if e.name.length < cname.length then pyStrip (pyLower (pyStrip cname))
      else normKey e := by
  unfold normKey fuzzyMergeInto
  split_ifs <;> rfl

theorem fuzzyInsert_inv (c : ConceptRecord) (cname norm : Str) (P : List Str)
    (l : List ConceptRecord)
    (hcn : pyStrip (pyLower (pyStrip cname)) = norm)
    (h1 : (l.map normKey).Pairwise Ne)
    (hmem : ∀ r ∈ l, normKey r ∈ P)
    (hn : norm ∉ P) :
    ((fuzzyInsert c cname norm l).1.map normKey).Pairwise Ne ∧
    (∀ r ∈ (fuzzyInsert c cname norm l).1,
      normKey r ∈ l.map normKey ∨ normKey r = norm) := by
  induction l with
  | nil =>
    exact ⟨List.Pairwise.nil, fun r h => absurd h (List.not_mem_nil r)⟩
  | cons e es ih =>
    rw [List.map_cons, List.pairwise_cons] at h1
    obtain ⟨hhead, htail⟩ := h1
    unfold fuzzyInsert
    split_ifs with hsim
    · -- merge into `e`
      constructor
      · rw [List.map_cons, List.pairwise_cons]
        refine ⟨?_, htail⟩
        intro y hy
        rw [normKey_fuzzyMergeInto]
        split_ifs with hlen
        · rw [hcn]
          intro heq
          obtain ⟨r, hr, hrk⟩ := List.mem_map.mp hy
          exact hn (heq ▸ hrk ▸ hmem r (List.mem_cons_of_mem e hr))
        · exact hhead y hy
      · intro r hr
        rcases List.mem_cons.mp hr with rfl | hres
        · rw [normKey_fuzzyMergeInto]
          split_ifs with hlen
          · exact Or.inr hcn
          · exact Or.inl (by rw [List.map_cons]; exact List.mem_cons_self _ _)
        · exact Or.inl (by
            rw [List.map_cons]
            exact List.mem_cons_of_mem _ (List.mem_map_of_mem normKey hres))
    · -- keep `e`, recurse
      have ihres := ih htail (fun r hr => hmem r (List.mem_cons_of_mem e hr))
      constructor
      · rw [List.map_cons, List.pairwise_cons]
        refine ⟨?_, ihres.1⟩
        intro y hy
        obtain ⟨r, hr, hrk⟩ := List.mem_map.mp hy
        rcases ihres.2 r hr with hin | hnorm
        · obtain ⟨r', hr', hrk'⟩ := List.mem_map.mp hin
          subst hrk
          rw [← hrk']
          exact hhead _ (List.mem_map_of_mem normKey hr')
        · subst hrk
          rw [hnorm]
          intro heq
          exact hn (heq ▸ hmem e (List.mem_cons_self e es))
      · intro r hr
        rcases List.mem_cons.mp hr with rfl | hres
        · exact Or.inl (by rw [List.map_cons]; exact List.mem_cons_self _ _)
        · rcases ihres.2 r hres with hin | hnorm
          · exact Or.inl (by rw [List.map_cons]; exact List.mem_cons_of_mem _ hin)
          · exact Or.inr hnorm


theorem dedupStep_inv (st : List ConceptRecord × List Str) (c : ConceptRecord)
    (h1 : (st.1.map normKey).Pairwise Ne)
    (h2 : ∀ r ∈ st.1, normKey r ∈ st.2) :
    (((dedupStep st c).1.map normKey).Pairwise Ne) ∧
    (∀ r ∈ (dedupStep st c).1, normKey r ∈ (dedupStep st c).2) := by
  simp only [dedupStep]
  by_cases hc : pyStrip c.name = []
  · rw [if_pos hc]
    exact ⟨h1, h2⟩
  rw [if_neg hc]
  by_cases hp : pyStrip (pyLower (pyStrip c.name)) ∈ st.2
  · rw [if_pos hp]
    have hmap := updateFirst_map_normKey
      (fun e => decide (pyLower e.name = pyStrip (pyLower (pyStrip c.name))))
      (mergeExactInto c) st.1 (fun e => rfl)
    refine ⟨by rw [hmap]; exact h1, ?_⟩
    intro r hr
    have hmm : normKey r ∈ (updateFirst
        (fun e => decide (pyLower e.name = pyStrip (pyLower (pyStrip c.name))))
        (mergeExactInto c) st.1).map normKey :=
      List.mem_map_of_mem normKey hr
    rw [hmap] at hmm
    obtain ⟨r2, hr2, hk⟩ := List.mem_map.mp hmm
    rw [← hk]
    exact h2 r2 hr2
  · rw [if_neg hp]
    have hcn : pyStrip (pyLower (pyStrip (pyStrip c.name))) =
        pyStrip (pyLower (pyStrip c.name)) := by
      rw [pyStrip_idem]
    have hinv := fuzzyInsert_inv c (pyStrip c.name)
      (pyStrip (pyLower (pyStrip c.name))) st.2 st.1 hcn h1 h2 hp
    by_cases hf : (fuzzyInsert c (pyStrip c.name)
        (pyStrip (pyLower (pyStrip c.name))) st.1).2 = true
    · rw [if_pos hf]
      refine ⟨hinv.1, ?_⟩
      intro r hr
      rcases hinv.2 r hr with hin | hnorm
      · obtain ⟨r2, hr2, hk⟩ := List.mem_map.mp hin
        rw [← hk]
        exact List.mem_append_left _ (h2 r2 hr2)
      · rw [hnorm]
        exact List.mem_append_right _ (List.mem_singleton_self _)
    · rw [if_neg hf]
      constructor
      · rw [List.map_append, List.pairwise_append]
        refine ⟨h1, by simp, ?_⟩
        intro a ha b hb
        simp only [List.map_cons, List.map_nil, List.mem_singleton] at hb
        obtain ⟨r2, hr2, hk⟩ := List.mem_map.mp ha
        subst hb
        rw [← hk]
        intro heq
        have h3 : normKey c ∈ st.2 := heq ▸ h2 r2 hr2
        exact hp h3
      · intro r hr
        rcases List.mem_append.mp hr with hl | hl
        · exact List.mem_append_left _ (h2 r hl)
        · simp only [List.mem_singleton] at hl
          subst hl
          exact List.mem_append_right _ (List.mem_singleton_self _)

theorem dedup_fold_inv (l : List ConceptRecord) (st : List ConceptRecord × List Str)
    (h1 : (st.1.map normKey).Pairwise Ne)
    (h2 : ∀ r ∈ st.1, normKey r ∈ st.2) :
    (((l.foldl dedupStep st).1.map normKey).Pairwise Ne) := by
  induction l generalizing st with
  | nil => exact h1
  | cons c t ih =>
    rw [List.foldl_cons]
    exact ih _ (dedupStep_inv st c h1 h2).1 (dedupStep_inv st c h1 h2).2

/-- C4 (amended): the deduplicated output never contains two records
whose names are exact case-insensitive duplicates (after stripping);
full fuzzy-duplicate freedom and idempotence fail when a fuzzy merge
renames a kept record to a longer name (see the counterexample). -/
theorem dedup_no_exact_case_insensitive_duplicates (cs : List ConceptRecord) :
    (deduplicateLearningConcepts cs).Pairwise
      (fun a b => pyStrip (pyLower (pyStrip a.name)) ≠ pyStrip (pyLower (pyStrip b.name))) := by
  unfold deduplicateLearningConcepts
  split_ifs
  · exact List.Pairwise.nil
  have h := dedup_fold_inv (sortByImportanceDesc cs) ([], [])
    (by simp) (by intro r hr; cases hr)
  rw [List.pairwise_map] at h
  exact h

/-- C4 counterexample: merging "deep neural network models" into
"deep neural network model" renames the kept record, which then shares
4 of 5 words (Jaccard 0.8 > 0.75) with the separately kept record
"deep neural network models extra"; the output of one deduplication pass
still contains this fuzzy-duplicate pair, and a second pass merges them,
so running the deduplicator twice does not equal running it once. -/
theorem dedup_not_idempotent_counterexample :
    deduplicateLearningConcepts (deduplicateLearningConcepts exConcepts) ≠
      deduplicateLearningConcepts exConcepts ∧
    (deduplicateLearningConcepts exConcepts).length = 2 ∧
    areSimilarConcepts
      (normName (((deduplicateLearningConcepts exConcepts).getD 0
        (mkConcept "" 0)).name))
      (normName (((deduplicateLearningConcepts exConcepts).getD 1
        (mkConcept "" 0)).name)) = true :=
  of_decide_eq_true (by with_unfolding_all rfl)



theorem Reaches.single {es : List (Str × Str)} {a b : Str}
    (h : (a, b) ∈ es ∨ (b, a) ∈ es) : Reaches es a b :=
  (Reaches.refl a).tail h

theorem Reaches.trans {es : List (Str × Str)} {u v w : Str}
    (h1 : Reaches es u v) (h2 : Reaches es v w) : Reaches es u w := by
  induction h2 with
  | refl => exact h1
  | tail _ hedge ih => exact ih.tail hedge

theorem Reaches.symm {es : List (Str × Str)} {u v : Str}
    (h : Reaches es u v) : Reaches es v u := by
  induction h with
  | refl => exact Reaches.refl _
  | tail _ hedge ih =>
    exact Reaches.trans (Reaches.single (Or.symm hedge)) ih

theorem Reaches.mono {es₁ es₂ : List (Str × Str)}
    (hsub : ∀ a b, (a, b) ∈ es₁ → (a, b) ∈ es₂ ∨ (b, a) ∈ es₂)
    {u v : Str} (h : Reaches es₁ u v) : Reaches es₂ u v := by
  induction h with
  | refl => exact Reaches.refl _
  | tail _ hedge ih =>
    rcases hedge with he | he
    · exact ih.tail (hsub _ _ he)
    · exact ih.tail (Or.symm (hsub _ _ he))

theorem reaches_nil {u v : Str} (h : Reaches [] u v) : u = v := by
  induction h with
  | refl => rfl
  | tail _ hedge _ => simp at hedge

theorem reaches_append_iff {es : List (Str × Str)} {x y u v : Str} :
    Reaches (es ++ [(x, y)]) u v ↔
      Reaches es u v ∨ (Reaches es u x ∧ Reaches es y v) ∨
      (Reaches es u y ∧ Reaches es x v) := by
  constructor
  · intro h
    induction h with
    | refl => exact Or.inl (Reaches.refl _)
    | @tail a b hab hedge ih =>
      rcases hedge with he | he <;> rcases List.mem_append.mp he with hin | hnew
      · rcases ih with h1 | ⟨h1, h2⟩ | ⟨h1, h2⟩
        · exact Or.inl (h1.tail (Or.inl hin))
        · exact Or.inr (Or.inl ⟨h1, h2.tail (Or.inl hin)⟩)
        · exact Or.inr (Or.inr ⟨h1, h2.tail (Or.inl hin)⟩)
      · simp only [List.mem_singleton, Prod.mk.injEq] at hnew
        obtain ⟨rfl, rfl⟩ := hnew
        rcases ih with h1 | ⟨h1, h2⟩ | ⟨h1, h2⟩
        · exact Or.inr (Or.inl ⟨h1, Reaches.refl _⟩)
        · exact Or.inr (Or.inl ⟨h1, Reaches.refl _⟩)
        · exact Or.inl h1
      · rcases ih with h1 | ⟨h1, h2⟩ | ⟨h1, h2⟩
        · exact Or.inl (h1.tail (Or.inr hin))
        · exact Or.inr (Or.inl ⟨h1, h2.tail (Or.inr hin)⟩)
        · exact Or.inr (Or.inr ⟨h1, h2.tail (Or.inr hin)⟩)
      · simp only [List.mem_singleton, Prod.mk.injEq] at hnew
        obtain ⟨rfl, rfl⟩ := hnew
        rcases ih with h1 | ⟨h1, h2⟩ | ⟨h1, h2⟩
        · exact Or.inr (Or.inr ⟨h1, Reaches.refl _⟩)
        · exact Or.inl h1
        · exact Or.inr (Or.inr ⟨h1, Reaches.refl _⟩)
  · have hmono : ∀ a b, Reaches es a b → Reaches (es ++ [(x, y)]) a b :=
      fun a b => Reaches.mono (fun c d hcd => Or.inl (List.mem_append_left _ hcd))
    have hxy : Reaches (es ++ [(x, y)]) x y :=
      Reaches.single (Or.inl (List.mem_append_right _ (List.mem_singleton_self _)))
    rintro (h1 | ⟨h1, h2⟩ | ⟨h1, h2⟩)
    · exact hmono _ _ h1
    · exact ((hmono _ _ h1).trans hxy).trans (hmono _ _ h2)
    · exact ((hmono _ _ h1).trans hxy.symm).trans (hmono _ _ h2)

theorem reaches_append_of_connected {es : List (Str × Str)} {x y : Str}
    (hxy : Reaches es x y) {u v : Str} :
    Reaches (es ++ [(x, y)]) u v ↔ Reaches es u v := by
  rw [reaches_append_iff]
  constructor
  · rintro (h | ⟨h1, h2⟩ | ⟨h1, h2⟩)
    · exact h
    · exact (h1.trans hxy).trans h2
    · exact (h1.trans hxy.symm).trans h2
  · exact Or.inl

theorem reaches_congr_append {es₁ es₂ : List (Str × Str)} {e : Str × Str}
    (h : ∀ a b, Reaches es₁ a b ↔ Reaches es₂ a b) {u v : Str} :
    Reaches (es₁ ++ [e]) u v ↔ Reaches (es₂ ++ [e]) u v := by
  obtain ⟨x, y⟩ := e
  rw [reaches_append_iff, reaches_append_iff]
  simp only [h]


theorem blocks_eq {p : List (List Str)} (hpair : p.Pairwise List.Disjoint)
    {C C2 : List Str} {a : Str} (hC : C ∈ p) (hC2 : C2 ∈ p)
    (haC : a ∈ C) (haC2 : a ∈ C2) : C = C2 := by
  induction p with
  | nil => cases hC
  | cons B rest ih =>
    rw [List.pairwise_cons] at hpair
    rcases List.mem_cons.mp hC with rfl | hCr
    · rcases List.mem_cons.mp hC2 with rfl | hC2r
      · rfl
      · exact absurd haC2 (hpair.1 _ hC2r haC)
    · rcases List.mem_cons.mp hC2 with rfl | hC2r
      · exact absurd haC (hpair.1 _ hCr haC2)
      · exact ih hpair.2 hCr hC2r

theorem blockOf_eq_some {p : List (List Str)} (hpair : p.Pairwise List.Disjoint)
    {C : List Str} {a : Str} (hC : C ∈ p) (haC : a ∈ C) :
    blockOf p a = some C := by
  rcases hb : blockOf p a with _ | B
  · exfalso
    unfold blockOf at hb
    rw [List.find?_eq_none] at hb
    have := hb C hC
    simp only [decide_eq_true_eq] at this
    exact this haC
  · have hBp : B ∈ p := List.mem_of_find?_eq_some hb
    have haB : a ∈ B := by
      have := List.find?_some hb
      simpa using this
    rw [blocks_eq hpair hBp hC haB haC]

theorem sameBlockB_of_mem {p : List (List Str)} (hpair : p.Pairwise List.Disjoint)
    {C : List Str} {a b : Str} (hC : C ∈ p) (haC : a ∈ C) (hbC : b ∈ C) :
    sameBlockB p a b = true := by
  unfold sameBlockB
  rw [blockOf_eq_some hpair hC haC]
  simpa using hbC

theorem partInv_pairwise {nodes : List Str} {proc : List (Str × Str)}
    {p : List (List Str)} (hnd : nodes.Nodup) (inv : PartInv nodes proc p) :
    p.Pairwise List.Disjoint :=
  (List.nodup_join.mp (inv.perm.nodup_iff.mpr hnd)).2

theorem flatten_singletons (nodes : List Str) :
    (nodes.map (fun x => [x])).flatten = nodes := by
  induction nodes with
  | nil => rfl
  | cons n t ih => simp [ih]

theorem partInv_init (nodes : List Str) (hnd : nodes.Nodup) :
    PartInv nodes [] (nodes.map (fun x => [x])) := by
  have hpair : (nodes.map (fun x => [x])).Pairwise List.Disjoint :=
    (List.nodup_join.mp (by rw [flatten_singletons]; exact hnd)).2
  refine ⟨by rw [flatten_singletons], ?_, ?_⟩
  · intro b hb
    obtain ⟨x, _, rfl⟩ := List.mem_map.mp hb
    simp
  · intro a b
    constructor
    · intro h
      unfold sameBlockB at h
      rcases hb : blockOf (nodes.map (fun x => [x])) a with _ | B
      · rw [hb] at h; cases h
      · rw [hb] at h
        have hBm : B ∈ nodes.map (fun x => [x]) := List.mem_of_find?_eq_some hb
        obtain ⟨x, hx, rfl⟩ := List.mem_map.mp hBm
        have haB : a ∈ [x] := by simpa using List.find?_some hb
        have hbB : b ∈ [x] := by simpa using h
        simp only [List.mem_singleton] at haB hbB
        subst haB; subst hbB
        exact ⟨hx, hx, Reaches.refl _⟩
    · rintro ⟨ha, hb, hr⟩
      have hab : a = b := reaches_nil hr
      subst hab
      have hC : [a] ∈ nodes.map (fun x => [x]) :=
        List.mem_map.mpr ⟨a, ha, rfl⟩
      exact sameBlockB_of_mem hpair hC (by simp) (by simp)



theorem eraseBlock_sublist (p : List (List Str)) (b : List Str) :
    (eraseBlock p b).Sublist p := by
  induction p with
  | nil => exact List.Sublist.refl _
  | cons c rest ih =>
    unfold eraseBlock
    split_ifs
    · exact (List.sublist_cons_self c rest)
    · exact ih.cons₂ c

theorem mem_eraseBlock_of_ne {p : List (List Str)} {a b : List Str}
    (hab : a ≠ b) : a ∈ eraseBlock p b ↔ a ∈ p := by
  induction p with
  | nil => simp [eraseBlock]
  | cons c rest ih =>
    unfold eraseBlock
    split_ifs with hc
    · subst hc
      simp [hab]
    · simp [ih]

theorem perm_cons_eraseBlock {p : List (List Str)} {b : List Str}
    (h : b ∈ p) : p.Perm (b :: eraseBlock p b) := by
  induction p with
  | nil => cases h
  | cons c rest ih =>
    unfold eraseBlock
    split_ifs with hc
    · subst hc
      exact List.Perm.refl _
    · rcases List.mem_cons.mp h with rfl | hr
      · exact absurd rfl hc
      · exact (ih hr).cons c |>.trans (List.Perm.swap _ _ _)


theorem partInv_step {nodes : List Str} {proc : List (Str × Str)}
    {p : List (List Str)} (hnd : nodes.Nodup) (inv : PartInv nodes proc p)
    {x y : Str} (hx : x ∈ nodes) (hy : y ∈ nodes) :
    PartInv nodes (proc ++ [(x, y)]) (mergeBlocks p x y) := by
  have hpair := partInv_pairwise hnd inv
  have hmemflat : ∀ z, z ∈ p.flatten ↔ z ∈ nodes := fun z => inv.perm.mem_iff
  by_cases hsb : sameBlockB p x y = true
  · have hmerge : mergeBlocks p x y = p := by
      unfold mergeBlocks
      rw [if_pos hsb]
    rw [hmerge]
    have hrxy : Reaches proc x y := ((inv.same_iff x y).mp hsb).2.2
    refine ⟨inv.perm, inv.noEmpty, ?_⟩
    intro a b
    rw [inv.same_iff a b, reaches_append_of_connected hrxy]
  · obtain ⟨A, hAp, hxA⟩ : ∃ A ∈ p, x ∈ A :=
      List.mem_flatten.mp ((hmemflat x).mpr hx)
    obtain ⟨B, hBp, hyB⟩ : ∃ B ∈ p, y ∈ B :=
      List.mem_flatten.mp ((hmemflat y).mpr hy)
    have hbx : blockOf p x = some A := blockOf_eq_some hpair hAp hxA
    have hby : blockOf p y = some B := blockOf_eq_some hpair hBp hyB
    have hyA : y ∉ A := by
      intro hyA
      refine hsb ?_
      unfold sameBlockB
      rw [hbx]
      simpa using hyA
    have hAB : A ≠ B := fun h => hyA (h ▸ hyB)
    have hmerge : mergeBlocks p x y = (A ++ B) :: eraseBlock (eraseBlock p A) B := by
      unfold mergeBlocks
      rw [if_neg hsb, hbx, hby]
    rw [hmerge]
    have hmA : ∀ z, z ∈ A ↔ (z ∈ nodes ∧ Reaches proc x z) := by
      intro z
      constructor
      · intro hz
        have h4 : sameBlockB p x z = true := by
          unfold sameBlockB
          rw [hbx]
          simpa using hz
        have h3 := (inv.same_iff x z).mp h4
        exact ⟨h3.2.1, h3.2.2⟩
      · rintro ⟨hz, hr⟩
        have h4 : sameBlockB p x z = true := (inv.same_iff x z).mpr ⟨hx, hz, hr⟩
        unfold sameBlockB at h4
        rw [hbx] at h4
        simpa using h4
    have hmB : ∀ z, z ∈ B ↔ (z ∈ nodes ∧ Reaches proc y z) := by
      intro z
      constructor
      · intro hz
        have h4 : sameBlockB p y z = true := by
          unfold sameBlockB
          rw [hby]
          simpa using hz
        have h3 := (inv.same_iff y z).mp h4
        exact ⟨h3.2.1, h3.2.2⟩
      · rintro ⟨hz, hr⟩
        have h4 : sameBlockB p y z = true := (inv.same_iff y z).mpr ⟨hy, hz, hr⟩
        unfold sameBlockB at h4
        rw [hby] at h4
        simpa using h4
    have hBeA : B ∈ eraseBlock p A := (mem_eraseBlock_of_ne hAB.symm).mpr hBp
    have hpermp : p.Perm (A :: B :: eraseBlock (eraseBlock p A) B) :=
      (perm_cons_eraseBlock hAp).trans ((perm_cons_eraseBlock hBeA).cons A)
    have hrest_sub : (eraseBlock (eraseBlock p A) B).Sublist p :=
      (eraseBlock_sublist _ _).trans (eraseBlock_sublist _ _)
    have hflid : ((A ++ B) :: eraseBlock (eraseBlock p A) B).flatten.Perm p.flatten := by
      have h1 : ((A ++ B) :: eraseBlock (eraseBlock p A) B).flatten =
          (A :: B :: eraseBlock (eraseBlock p A) B).flatten := by
        simp [List.append_assoc]
      rw [h1]
      exact (hpermp.flatten).symm
    refine ⟨hflid.trans inv.perm, ?_, ?_⟩
    · intro b hb
      rcases List.mem_cons.mp hb with rfl | hbr
      · intro habs
        rw [List.append_eq_nil] at habs
        exact absurd (habs.1 ▸ hxA) (List.not_mem_nil x)
      · exact inv.noEmpty b (hrest_sub.mem hbr)
    · intro a b
      by_cases haAB : a ∈ A ++ B
      · have hbo : blockOf ((A ++ B) :: eraseBlock (eraseBlock p A) B) a =
            some (A ++ B) := by
          unfold blockOf
          rw [List.find?_cons_of_pos]
          simpa using haAB
        have hsbeq : sameBlockB ((A ++ B) :: eraseBlock (eraseBlock p A) B) a b =
            decide (b ∈ A ++ B) := by
          unfold sameBlockB
          rw [hbo]
        rw [hsbeq]
        have hxy2 : Reaches (proc ++ [(x, y)]) x y :=
          Reaches.single (Or.inl (List.mem_append_right _
            (List.mem_singleton_self _)))
        have hlift : ∀ c d, Reaches proc c d → Reaches (proc ++ [(x, y)]) c d :=
          fun c d => Reaches.mono
            (fun e f hef => Or.inl (List.mem_append_left _ hef))
        have hconn : ∀ z, z ∈ A ++ B →
            z ∈ nodes ∧ Reaches (proc ++ [(x, y)]) x z := by
          intro z hz
          rcases List.mem_append.mp hz with hzA | hzB
          · have h3 := (hmA z).mp hzA
            exact ⟨h3.1, hlift _ _ h3.2⟩
          · have h3 := (hmB z).mp hzB
            exact ⟨h3.1, hxy2.trans (hlift _ _ h3.2)⟩
        have haconn := hconn a haAB
        constructor
        · intro hbd
          have hbconn := hconn b (by simpa using hbd)
          exact ⟨haconn.1, hbconn.1, haconn.2.symm.trans hbconn.2⟩
        · rintro ⟨han, hbn, hr⟩
          have hxb : Reaches (proc ++ [(x, y)]) x b := haconn.2.trans hr
          rcases reaches_append_iff.mp hxb with h1 | ⟨h1, h2⟩ | ⟨h1, h2⟩
          · have hbA : b ∈ A := (hmA b).mpr ⟨hbn, h1⟩
            simpa using List.mem_append_left B hbA
          · have hbB : b ∈ B := (hmB b).mpr ⟨hbn, h2⟩
            simpa using List.mem_append_right A hbB
          · have hbA : b ∈ A := (hmA b).mpr ⟨hbn, h2⟩
            simpa using List.mem_append_left B hbA
      · by_cases han : a ∈ nodes
        · obtain ⟨C, hCp, haC⟩ : ∃ C ∈ p, a ∈ C :=
            List.mem_flatten.mp ((hmemflat a).mpr han)
          have haA : a ∉ A := fun h => haAB (List.mem_append_left B h)
          have haB : a ∉ B := fun h => haAB (List.mem_append_right A h)
          have hCA : C ≠ A := fun h => haA (h ▸ haC)
          have hCB : C ≠ B := fun h => haB (h ▸ haC)
          have hCrest : C ∈ eraseBlock (eraseBlock p A) B :=
            (mem_eraseBlock_of_ne hCB).mpr ((mem_eraseBlock_of_ne hCA).mpr hCp)
          have hrestpair : (eraseBlock (eraseBlock p A) B).Pairwise List.Disjoint :=
            hpair.sublist hrest_sub
          have hboC : blockOf (eraseBlock (eraseBlock p A) B) a = some C :=
            blockOf_eq_some hrestpair hCrest haC
          have hbo : blockOf ((A ++ B) :: eraseBlock (eraseBlock p A) B) a =
              some C := by
            unfold blockOf at hboC ⊢
            rw [List.find?_cons_of_neg]
            · exact hboC
            · simpa using haAB
          have hboP : blockOf p a = some C := blockOf_eq_some hpair hCp haC
          have heq : sameBlockB ((A ++ B) :: eraseBlock (eraseBlock p A) B) a b =
              sameBlockB p a b := by
            unfold sameBlockB
            rw [hbo, hboP]
          rw [heq, inv.same_iff a b]
          have hnax : ¬ Reaches proc a x := by
            intro hr
            exact haA ((hmA a).mpr ⟨han, hr.symm⟩)
          have hnay : ¬ Reaches proc a y := by
            intro hr
            exact haB ((hmB a).mpr ⟨han, hr.symm⟩)
          constructor
          · rintro ⟨h1, h2, h3⟩
            exact ⟨h1, h2, Reaches.mono
              (fun c d hcd => Or.inl (List.mem_append_left _ hcd)) h3⟩
          · rintro ⟨h1, h2, h3⟩
            rcases reaches_append_iff.mp h3 with h4 | ⟨h4, h5⟩ | ⟨h4, h5⟩
            · exact ⟨h1, h2, h4⟩
            · exact absurd h4 hnax
            · exact absurd h4 hnay
        · have hbo : blockOf ((A ++ B) :: eraseBlock (eraseBlock p A) B) a =
              none := by
            unfold blockOf
            rw [List.find?_eq_none]
            intro blk hblk
            simp only [decide_eq_true_eq]
            rcases List.mem_cons.mp hblk with rfl | hblkr
            · exact haAB
            · intro hablk
              exact han ((hmemflat a).mp (List.mem_flatten.mpr
                ⟨blk, hrest_sub.mem hblkr, hablk⟩))
          constructor
          · intro hcontra
            unfold sameBlockB at hcontra
            rw [hbo] at hcontra
            cases hcontra
          · rintro ⟨h1, _, _⟩
            exact absurd h1 han


theorem componentsOfEdges_inv (nodes : List Str) (edges : List (Str × Str))
    (hnd : nodes.Nodup) (hwf : ∀ e ∈ edges, e.1 ∈ nodes ∧ e.2 ∈ nodes) :
    PartInv nodes edges (componentsOfEdges nodes edges) := by
  unfold componentsOfEdges
  suffices h : ∀ (l : List (Str × Str)) (proc : List (Str × Str))
      (p : List (List Str)), PartInv nodes proc p →
      (∀ e ∈ l, e.1 ∈ nodes ∧ e.2 ∈ nodes) →
      PartInv nodes (proc ++ l) (l.foldl (fun p e => mergeBlocks p e.1 e.2) p) by
    simpa using h edges [] _ (partInv_init nodes hnd) hwf
  intro l
  induction l with
  | nil =>
    intro proc p hp _
    simpa using hp
  | cons e t ih =>
    intro proc p hp hwf2
    rw [List.foldl_cons]
    have he := hwf2 e (List.mem_cons_self e t)
    have hstep := partInv_step hnd hp he.1 he.2
    have hrec := ih (proc ++ [(e.1, e.2)]) _ hstep
      (fun f hf => hwf2 f (List.mem_cons_of_mem e hf))
    have heq : proc ++ [(e.1, e.2)] ++ t = proc ++ e :: t := by
      rw [List.append_assoc]
      simp
    rw [heq] at hrec
    exact hrec

theorem comps_nonempty {nodes : List Str} {edges : List (Str × Str)}
    (hnd : nodes.Nodup) (hwf : ∀ e ∈ edges, e.1 ∈ nodes ∧ e.2 ∈ nodes)
    {c : List Str} (hc : c ∈ componentsOfEdges nodes edges) : c ≠ [] :=
  (componentsOfEdges_inv nodes edges hnd hwf).noEmpty c hc

theorem comps_subset {nodes : List Str} {edges : List (Str × Str)}
    (hnd : nodes.Nodup) (hwf : ∀ e ∈ edges, e.1 ∈ nodes ∧ e.2 ∈ nodes)
    {c : List Str} (hc : c ∈ componentsOfEdges nodes edges)
    {a : Str} (ha : a ∈ c) : a ∈ nodes := by
  have inv := componentsOfEdges_inv nodes edges hnd hwf
  exact inv.perm.mem_iff.mp (List.mem_flatten.mpr ⟨c, hc, ha⟩)

theorem comps_reaches {nodes : List Str} {edges : List (Str × Str)}
    (hnd : nodes.Nodup) (hwf : ∀ e ∈ edges, e.1 ∈ nodes ∧ e.2 ∈ nodes)
    {c : List Str} (hc : c ∈ componentsOfEdges nodes edges)
    {a b : Str} (ha : a ∈ c) (hb : b ∈ c) : Reaches edges a b := by
  have inv := componentsOfEdges_inv nodes edges hnd hwf
  have hpair := partInv_pairwise hnd inv
  have hsb := sameBlockB_of_mem hpair hc ha hb
  exact ((inv.same_iff a b).mp hsb).2.2

theorem comps_closed {nodes : List Str} {edges : List (Str × Str)}
    (hnd : nodes.Nodup) (hwf : ∀ e ∈ edges, e.1 ∈ nodes ∧ e.2 ∈ nodes)
    {c : List Str} (hc : c ∈ componentsOfEdges nodes edges)
    {a b : Str} (ha : a ∈ c) (hb : Reaches edges a b) (hbn : b ∈ nodes) :
    b ∈ c := by
  have inv := componentsOfEdges_inv nodes edges hnd hwf
  have hpair := partInv_pairwise hnd inv
  have han : a ∈ nodes := comps_subset hnd hwf hc ha
  have hsb : sameBlockB (componentsOfEdges nodes edges) a b = true :=
    (inv.same_iff a b).mpr ⟨han, hbn, hb⟩
  unfold sameBlockB at hsb
  rw [blockOf_eq_some hpair hc ha] at hsb
  simpa using hsb

theorem comps_length_one {nodes : List Str} {edges : List (Str × Str)}
    (hnd : nodes.Nodup) (hwf : ∀ e ∈ edges, e.1 ∈ nodes ∧ e.2 ∈ nodes)
    (hne : nodes ≠ [])
    (hall : ∀ a ∈ nodes, ∀ b ∈ nodes, Reaches edges a b) :
    (componentsOfEdges nodes edges).length = 1 := by
  have inv := componentsOfEdges_inv nodes edges hnd hwf
  have hpair := partInv_pairwise hnd inv
  rcases hp : componentsOfEdges nodes edges with _ | ⟨B, rest⟩
  · exfalso
    have h0 : ([] : List (List Str)).flatten.Perm nodes := hp ▸ inv.perm
    exact hne (List.Perm.eq_nil h0.symm)
  · rcases hr : rest with _ | ⟨B2, rest2⟩
    · rfl
    · exfalso
      subst hr
      have hB : B ≠ [] := inv.noEmpty B (by rw [hp]; exact List.mem_cons_self _ _)
      have hB2 : B2 ≠ [] := inv.noEmpty B2 (by
        rw [hp]; exact List.mem_cons_of_mem _ (List.mem_cons_self _ _))
      obtain ⟨a, ha⟩ := List.exists_mem_of_ne_nil B hB
      obtain ⟨b, hb⟩ := List.exists_mem_of_ne_nil B2 hB2
      have han : a ∈ nodes := comps_subset hnd hwf
        (by rw [hp]; exact List.mem_cons_self _ _) ha
      have hbn : b ∈ nodes := comps_subset hnd hwf
        (by rw [hp]; exact List.mem_cons_of_mem _ (List.mem_cons_self _ _)) hb
      have hsb : sameBlockB (componentsOfEdges nodes edges) a b = true :=
        (inv.same_iff a b).mpr ⟨han, hbn, hall a han b hbn⟩
      unfold sameBlockB at hsb
      rw [hp] at hsb
      unfold blockOf at hsb
      rw [List.find?_cons_of_pos _ (by simpa using ha)] at hsb
      have hbB : b ∈ B := by simpa using hsb
      have hdisj : List.Disjoint B B2 := by
        have := hp ▸ hpair
        rw [List.pairwise_cons] at this
        exact this.1 B2 (List.mem_cons_self _ _)
      exact hdisj hbB hb


theorem reaches_perm {es1 es2 : List (Str × Str)} (h : es1.Perm es2)
    {a b : Str} : Reaches es1 a b ↔ Reaches es2 a b :=
  ⟨Reaches.mono (fun c d hcd => Or.inl (h.mem_iff.mp hcd)),
   Reaches.mono (fun c d hcd => Or.inl (h.mem_iff.mpr hcd))⟩

theorem kruskalFold_go (nodes : List Str) (hnd : nodes.Nodup)
    (l : List MstEdge) :
    ∀ (proc : List (Str × Str)) (p : List (List Str)) (f : List MstEdge),
    PartInv nodes proc p →
    (∀ a b, Reaches (f.map MstEdge.pair) a b ↔ Reaches proc a b) →
    (∀ e ∈ l, e.u ∈ nodes ∧ e.v ∈ nodes) →
    PartInv nodes (proc ++ l.map MstEdge.pair)
      (l.foldl (fun st e =>
        if sameBlockB st.1 e.u e.v then st
        else (mergeBlocks st.1 e.u e.v, st.2 ++ [e])) (p, f)).1 ∧
    (∀ a b, Reaches ((l.foldl (fun st e =>
        if sameBlockB st.1 e.u e.v then st
        else (mergeBlocks st.1 e.u e.v, st.2 ++ [e])) (p, f)).2.map MstEdge.pair) a b ↔
      Reaches (proc ++ l.map MstEdge.pair) a b) := by
  induction l with
  | nil =>
    intro proc p f hp hf _
    refine ⟨by simpa using hp, ?_⟩
    intro a b
    simp only [List.foldl_nil, List.map_nil, List.append_nil]
    exact hf a b
  | cons e t ih =>
    intro proc p f hp hf hwf
    have he := hwf e (List.mem_cons_self e t)
    rw [List.foldl_cons]
    have heq : proc ++ (e :: t).map MstEdge.pair =
        (proc ++ [e.pair]) ++ t.map MstEdge.pair := by
      simp [List.append_assoc]
    rw [heq]
    by_cases hsb : sameBlockB p e.u e.v = true
    · rw [if_pos hsb]
      have hreach : Reaches proc e.u e.v := ((hp.same_iff e.u e.v).mp hsb).2.2
      have hstep : PartInv nodes (proc ++ [e.pair]) p := by
        have h2 := partInv_step hnd hp he.1 he.2
        have hm : mergeBlocks p e.u e.v = p := by
          unfold mergeBlocks
          rw [if_pos hsb]
        rw [hm] at h2
        exact h2
      refine ih (proc ++ [e.pair]) p f hstep ?_
        (fun g hg => hwf g (List.mem_cons_of_mem e hg))
      intro a b
      rw [hf a b]
      exact (reaches_append_of_connected hreach).symm
    · rw [if_neg hsb]
      have hstep : PartInv nodes (proc ++ [e.pair]) (mergeBlocks p e.u e.v) :=
        partInv_step hnd hp he.1 he.2
      refine ih (proc ++ [e.pair]) _ (f ++ [e]) hstep ?_
        (fun g hg => hwf g (List.mem_cons_of_mem e hg))
      intro a b
      rw [List.map_append]
      exact reaches_congr_append hf

theorem kruskalFold_sub (nodes : List Str) (l : List MstEdge) :
    ∀ (p : List (List Str)) (f : List MstEdge),
    (∀ e ∈ f, e ∈ l ∨ e ∈ f) →
    ∀ e ∈ (l.foldl (fun st e =>
        if sameBlockB st.1 e.u e.v then st
        else (mergeBlocks st.1 e.u e.v, st.2 ++ [e])) (p, f)).2,
      e ∈ l ∨ e ∈ f := by
  induction l with
  | nil =>
    intro p f h e he
    exact h e he
  | cons x t ih =>
    intro p f _ e he
    rw [List.foldl_cons] at he
    by_cases hsb : sameBlockB p x.u x.v = true
    · rw [if_pos hsb] at he
      rcases ih p f (fun g hg => Or.inr hg) e he with h1 | h1
      · exact Or.inl (List.mem_cons_of_mem x h1)
      · exact Or.inr h1
    · rw [if_neg hsb] at he
      rcases ih (mergeBlocks p x.u x.v) (f ++ [x]) (fun g hg => Or.inr hg) e he with
        h1 | h1
      · exact Or.inl (List.mem_cons_of_mem x h1)
      · rcases List.mem_append.mp h1 with h2 | h2
        · exact Or.inr h2
        · simp only [List.mem_singleton] at h2
          subst h2
          exact Or.inl (List.mem_cons_self e t)

theorem kruskalMST_mem {nodes : List Str} {edges : List MstEdge}
    {e : MstEdge} (he : e ∈ kruskalMST nodes edges) : e ∈ edges := by
  unfold kruskalMST kruskalFold at he
  have h := kruskalFold_sub nodes
    (List.insertionSort (fun a b => a.recip ≤ b.recip) edges)
    (nodes.map (fun x => [x])) [] (fun g hg => Or.inr hg) e he
  rcases h with h1 | h1
  · exact (List.perm_insertionSort _ edges).mem_iff.mp h1
  · cases h1

theorem kruskalMST_reaches (nodes : List Str) (edges : List MstEdge)
    (hnd : nodes.Nodup) (hwf : ∀ e ∈ edges, e.u ∈ nodes ∧ e.v ∈ nodes)
    (a b : Str) :
    Reaches ((kruskalMST nodes edges).map MstEdge.pair) a b ↔
      Reaches (edges.map MstEdge.pair) a b := by
  have hperm : (List.insertionSort (fun a b => a.recip ≤ b.recip) edges).Perm edges :=
    List.perm_insertionSort _ edges
  have hgo := kruskalFold_go nodes hnd
    (List.insertionSort (fun a b => a.recip ≤ b.recip) edges)
    [] (nodes.map (fun x => [x])) [] (partInv_init nodes hnd)
    (fun a b => Iff.rfl)
    (fun e he => hwf e (hperm.mem_iff.mp he))
  unfold kruskalMST kruskalFold
  rw [hgo.2 a b]
  rw [List.nil_append]
  exact reaches_perm (hperm.map MstEdge.pair)


theorem undirectedWeighted_shape (es : List (Str × Str × Nat)) :
    ∀ t ∈ undirectedWeighted es, ∃ e ∈ es, t = (e.1, e.2.1, (e.2.2 : ℚ)) := by
  unfold undirectedWeighted
  suffices h : ∀ (l : List (Str × Str × Nat)) (acc : List (Str × Str × ℚ)),
      (∀ t ∈ acc, ∃ e ∈ es, t = (e.1, e.2.1, (e.2.2 : ℚ))) →
      (∀ e ∈ l, e ∈ es) →
      ∀ t ∈ l.foldl (fun acc e =>
        if acc.any (fun f =>
            decide ((f.1 = e.1 ∧ f.2.1 = e.2.1) ∨ (f.1 = e.2.1 ∧ f.2.1 = e.1))) then
          acc
        else acc ++ [(e.1, e.2.1, (e.2.2 : ℚ))]) acc,
        ∃ e ∈ es, t = (e.1, e.2.1, (e.2.2 : ℚ)) by
    exact h es [] (fun t ht => absurd ht (List.not_mem_nil t)) (fun e he => he)
  intro l
  induction l with
  | nil =>
    intro acc hacc _ t ht
    exact hacc t ht
  | cons x xs ih =>
    intro acc hacc hl t ht
    rw [List.foldl_cons] at ht
    split_ifs at ht
    · exact ih acc hacc (fun e he => hl e (List.mem_cons_of_mem x he)) t ht
    · refine ih _ ?_ (fun e he => hl e (List.mem_cons_of_mem x he)) t ht
      intro t2 ht2
      rcases List.mem_append.mp ht2 with h2 | h2
      · exact hacc t2 h2
      · simp only [List.mem_singleton] at h2
        subst h2
        exact ⟨x, hl x (List.mem_cons_self x xs), rfl⟩

theorem mstGraphEdges_wf (g : BGraph)
    (hwf : ∀ e ∈ g.edges, e.1 ∈ g.ids ∧ e.2.1 ∈ g.ids) :
    ∀ e ∈ mstGraphEdges g, e.u ∈ g.ids ∧ e.v ∈ g.ids := by
  intro e he
  unfold mstGraphEdges at he
  obtain ⟨t, ht, rfl⟩ := List.mem_map.mp he
  obtain ⟨d, hd, rfl⟩ := undirectedWeighted_shape g.edges t ht
  exact hwf d hd

theorem mstGraphEdges_not_inter (g : BGraph) :
    ∀ e ∈ mstGraphEdges g, e.inter = false := by
  intro e he
  unfold mstGraphEdges at he
  obtain ⟨t, _, rfl⟩ := List.mem_map.mp he
  rfl

theorem inducedEdges_mem {c : List Str} {es : List MstEdge} {e : MstEdge}
    (he : e ∈ inducedEdges c es) : e ∈ es ∧ e.u ∈ c ∧ e.v ∈ c := by
  unfold inducedEdges at he
  have h1 := List.mem_of_mem_filter he
  have h2 := List.of_mem_filter he
  simp only [Bool.and_eq_true, decide_eq_true_eq] at h2
  exact ⟨h1, h2.1, h2.2⟩

theorem reaches_endpoint {es : List (Str × Str)} {a v : Str}
    (h : Reaches es a v) : a = v ∨ ∃ e ∈ es, v = e.1 ∨ v = e.2 := by
  cases h with
  | refl => exact Or.inl rfl
  | tail h1 hedge =>
    right
    rcases hedge with he | he
    · exact ⟨_, he, Or.inr rfl⟩
    · exact ⟨_, he, Or.inl rfl⟩

theorem reaches_induced (nodes : List Str) (es : List MstEdge)
    (hnd : nodes.Nodup) (hwf : ∀ e ∈ es, e.u ∈ nodes ∧ e.v ∈ nodes)
    {c : List Str} (hc : c ∈ componentsOfEdges nodes (es.map MstEdge.pair))
    {a b : Str} (ha : a ∈ c) (hb : b ∈ c) :
    Reaches ((inducedEdges c es).map MstEdge.pair) a b := by
  have hwfp : ∀ e ∈ es.map MstEdge.pair, e.1 ∈ nodes ∧ e.2 ∈ nodes := by
    intro e he
    obtain ⟨d, hd, rfl⟩ := List.mem_map.mp he
    exact hwf d hd
  have hr : Reaches (es.map MstEdge.pair) a b :=
    comps_reaches hnd hwfp hc ha hb
  clear hb
  induction hr with
  | refl => exact Reaches.refl _
  | @tail v x hav hedge ih =>
    have hvn : v ∈ nodes := by
      rcases reaches_endpoint hav with rfl | ⟨e, he, hv⟩
      · exact comps_subset hnd hwfp hc ha
      · rcases hv with rfl | rfl
        · exact (hwfp e he).1
        · exact (hwfp e he).2
    have hvc : v ∈ c := comps_closed hnd hwfp hc ha hav hvn
    have hxn : x ∈ nodes := by
      rcases hedge with he | he
      · exact (hwfp _ he).2
      · exact (hwfp _ he).1
    have hxc : x ∈ c := comps_closed hnd hwfp hc ha (hav.tail hedge) hxn
    rcases hedge with he | he
    · obtain ⟨d, hd, hdp⟩ := List.mem_map.mp he
      have hdu : d.u = v := congrArg Prod.fst hdp
      have hdv : d.v = x := congrArg Prod.snd hdp
      have hdin : d ∈ inducedEdges c es := by
        unfold inducedEdges
        refine List.mem_filter.mpr ⟨hd, ?_⟩
        simp [hdu, hdv, hvc, hxc]
      refine ih.tail (Or.inl ?_)
      exact List.mem_map.mpr ⟨d, hdin, hdp⟩
    · obtain ⟨d, hd, hdp⟩ := List.mem_map.mp he
      have hdu : d.u = x := congrArg Prod.fst hdp
      have hdv : d.v = v := congrArg Prod.snd hdp
      have hdin : d ∈ inducedEdges c es := by
        unfold inducedEdges
        refine List.mem_filter.mpr ⟨hd, ?_⟩
        simp [hdu, hdv, hvc, hxc]
      refine ih.tail (Or.inr ?_)
      exact List.mem_map.mpr ⟨d, hdin, hdp⟩


theorem firstMax_go (l : List (Str × ℚ)) :
    ∀ (acc : Option (Str × ℚ)) (q : Str × ℚ),
    l.foldl (fun acc p =>
      match acc with
      | none => some p
      | some r => if r.2 < p.2 then some p else some r) acc = some q →
    acc = some q ∨ q ∈ l := by
  induction l with
  | nil =>
    intro acc q h
    exact Or.inl h
  | cons p t ih =>
    intro acc q h
    rw [List.foldl_cons] at h
    rcases ih _ q h with h1 | h1
    · cases acc with
      | none =>
        have h2 : some p = some q := h1
        simp only [Option.some.injEq] at h2
        exact Or.inr (h2 ▸ List.mem_cons_self p t)
      | some r =>
        have h2 : (if r.2 < p.2 then some p else some r) = some q := h1
        by_cases hlt : r.2 < p.2
        · rw [if_pos hlt] at h2
          simp only [Option.some.injEq] at h2
          exact Or.inr (h2 ▸ List.mem_cons_self p t)
        · rw [if_neg hlt] at h2
          exact Or.inl h2
    · exact Or.inr (List.mem_cons_of_mem p h1)

theorem firstMax_mem {l : List (Str × ℚ)} {q : Str × ℚ}
    (h : firstMax l = some q) : q ∈ l := by
  unfold firstMax at h
  rcases firstMax_go l none q h with h1 | h1
  · cases h1
  · exact h1

theorem firstMax_isSome_go (l : List (Str × ℚ)) (r : Str × ℚ) :
    ∃ q, l.foldl (fun acc p =>
      match acc with
      | none => some p
      | some r => if r.2 < p.2 then some p else some r) (some r) = some q := by
  induction l generalizing r with
  | nil => exact ⟨r, rfl⟩
  | cons p t ih =>
    rw [List.foldl_cons]
    by_cases hlt : r.2 < p.2
    · simp only [hlt, if_true]
      exact ih p
    · simp only [hlt, if_false]
      exact ih r

theorem firstMax_isSome {l : List (Str × ℚ)} (h : l ≠ []) :
    ∃ q, firstMax l = some q := by
  unfold firstMax
  cases l with
  | nil => exact absurd rfl h
  | cons p t =>
    rw [List.foldl_cons]
    exact firstMax_isSome_go t p

theorem componentCentrality_keys (c : List Str) (f : List MstEdge) :
    ∀ q ∈ componentCentrality c f, q.1 ∈ c := by
  intro q hq
  unfold componentCentrality at hq
  split_ifs at hq
  · obtain ⟨x, hx, rfl⟩ := List.mem_map.mp hq
    exact hx
  · obtain ⟨x, hx, rfl⟩ := List.mem_map.mp hq
    exact hx

theorem componentCentrality_ne_nil {c : List Str} (h : c ≠ []) (f : List MstEdge) :
    componentCentrality c f ≠ [] := by
  unfold componentCentrality
  split_ifs <;> simpa using h

theorem connectors_length_go (msts : List (List Str × List MstEdge))
    (hne : ∀ cf ∈ msts, cf.1 ≠ []) :
    (componentConnectors msts).length = msts.length := by
  induction msts with
  | nil => rfl
  | cons cf t ih =>
    unfold componentConnectors at ih ⊢
    rw [List.filterMap_cons]
    obtain ⟨q, hq⟩ := firstMax_isSome
      (componentCentrality_ne_nil (hne cf (List.mem_cons_self cf t)) cf.2)
    rw [hq, List.length_cons, ih (fun d hd => hne d (List.mem_cons_of_mem cf hd))]
    rfl

theorem connectors_mem_go (msts : List (List Str × List MstEdge)) :
    ∀ r ∈ componentConnectors msts, ∃ cf ∈ msts, r.1 ∈ cf.1 := by
  induction msts with
  | nil =>
    intro r hr
    cases hr
  | cons cf t ih =>
    intro r hr
    unfold componentConnectors at hr
    rw [List.filterMap_cons] at hr
    rcases hfm : firstMax (componentCentrality cf.1 cf.2) with _ | q
    · rw [hfm] at hr
      obtain ⟨d, hd, hrd⟩ := ih r hr
      exact ⟨d, List.mem_cons_of_mem cf hd, hrd⟩
    · rw [hfm] at hr
      rcases List.mem_cons.mp hr with rfl | hrt
      · exact ⟨cf, List.mem_cons_self cf t,
          componentCentrality_keys cf.1 cf.2 r (firstMax_mem hfm)⟩
      · obtain ⟨d, hd, hrd⟩ := ih r hrt
        exact ⟨d, List.mem_cons_of_mem cf hd, hrd⟩

theorem connectors_cover_go (msts : List (List Str × List MstEdge))
    (hne : ∀ cf ∈ msts, cf.1 ≠ []) :
    ∀ cf ∈ msts, ∃ q ∈ componentConnectors msts, q.1 ∈ cf.1 := by
  induction msts with
  | nil =>
    intro cf hcf
    cases hcf
  | cons d t ih =>
    intro cf hcf
    unfold componentConnectors
    rw [List.filterMap_cons]
    obtain ⟨q, hq⟩ := firstMax_isSome
      (componentCentrality_ne_nil (hne d (List.mem_cons_self d t)) d.2)
    rw [hq]
    rcases List.mem_cons.mp hcf with rfl | hcft
    · exact ⟨q, List.mem_cons_self _ _,
        componentCentrality_keys cf.1 cf.2 q (firstMax_mem hq)⟩
    · obtain ⟨r, hr, hrc⟩ := ih (fun e he => hne e (List.mem_cons_of_mem d he)) cf hcft
      exact ⟨r, List.mem_cons_of_mem q hr, hrc⟩

theorem connectors_pairwise_go (msts : List (List Str × List MstEdge))
    (hdisj : msts.Pairwise (fun a b => List.Disjoint a.1 b.1)) :
    (componentConnectors msts).Pairwise (fun a b => a.1 ≠ b.1) := by
  induction msts with
  | nil => exact List.Pairwise.nil
  | cons cf t ih =>
    rw [List.pairwise_cons] at hdisj
    unfold componentConnectors
    rw [List.filterMap_cons]
    rcases hfm : firstMax (componentCentrality cf.1 cf.2) with _ | q
    · exact ih hdisj.2
    · rw [List.pairwise_cons]
      refine ⟨?_, ih hdisj.2⟩
      intro r hr
      obtain ⟨d, hd, hrd⟩ := connectors_mem_go t r hr
      have hq1 : q.1 ∈ cf.1 :=
        componentCentrality_keys cf.1 cf.2 q (firstMax_mem hfm)
      intro heq
      exact hdisj.1 d hd (heq ▸ hq1) hrd

theorem componentMSTs_fst (comps : List (List Str)) (es : List MstEdge) :
    (componentMSTs comps es).map Prod.fst = comps := by
  unfold componentMSTs
  rw [List.map_map]
  have h : ∀ c ∈ comps, (Prod.fst ∘ fun c =>
      if 1 < c.length then (c, kruskalMST c (inducedEdges c es)) else (c, [])) c
      = id c := by
    intro c _
    simp only [Function.comp_apply, id]
    split_ifs <;> rfl
  rw [List.map_congr_left h, List.map_id]


theorem sortConnectors_perm (l : List (Str × ℚ)) :
    (sortConnectorsDesc l).Perm l :=
  List.perm_insertionSort _ l

theorem sortConnectors_head_max {l : List (Str × ℚ)} {main : Str × ℚ}
    {rest : List (Str × ℚ)} (h : sortConnectorsDesc l = main :: rest) :
    ∀ q ∈ l, q.2 ≤ main.2 := by
  haveI ht : IsTotal (Str × ℚ) (fun a b => b.2 ≤ a.2) :=
    ⟨fun a b => le_total b.2 a.2⟩
  haveI htr : IsTrans (Str × ℚ) (fun a b => b.2 ≤ a.2) :=
    ⟨fun a b c h1 h2 => le_trans h2 h1⟩
  have hs := List.sorted_insertionSort (fun (a b : Str × ℚ) => b.2 ≤ a.2) l
  unfold sortConnectorsDesc at h
  rw [h] at hs
  rw [List.Sorted, List.pairwise_cons] at hs
  intro q hq
  have hq2 : q ∈ main :: rest := by
    rw [← h]
    exact (sortConnectors_perm l).mem_iff.mpr hq
  rcases List.mem_cons.mp hq2 with rfl | hqr
  · exact le_refl _
  · exact hs.1 q hqr

theorem directedReconstruct_wf (g : BGraph) (es : List MstEdge) (S : List Str)
    (hwf : ∀ e ∈ es, e.u ∈ S ∧ e.v ∈ S) :
    ∀ d ∈ directedReconstruct g es, d.1 ∈ S ∧ d.2.1 ∈ S := by
  intro d hd
  unfold directedReconstruct at hd
  obtain ⟨e, he, hde⟩ := List.mem_flatMap.mp hd
  have hee := hwf e he
  split_ifs at hde
  · simp only [List.mem_singleton] at hde
    subst hde
    exact ⟨hee.1, hee.2⟩
  · simp only [List.mem_singleton] at hde
    subst hde
    exact ⟨hee.2, hee.1⟩
  · rcases List.mem_cons.mp hde with rfl | hde2
    · exact ⟨hee.1, hee.2⟩
    · simp only [List.mem_singleton] at hde2
      subst hde2
      exact ⟨hee.2, hee.1⟩

theorem directedReconstruct_orient (g : BGraph) (es : List MstEdge) :
    ∀ a b, (a, b) ∈ es.map MstEdge.pair →
    (a, b) ∈ (directedReconstruct g es).map (fun d => (d.1, d.2.1)) ∨
    (b, a) ∈ (directedReconstruct g es).map (fun d => (d.1, d.2.1)) := by
  intro a b hab
  obtain ⟨e, he, hpe⟩ := List.mem_map.mp hab
  have hu : e.u = a := congrArg Prod.fst hpe
  have hv : e.v = b := congrArg Prod.snd hpe
  unfold directedReconstruct
  by_cases h1 : g.edges.any (fun d => decide (d.1 = e.u ∧ d.2.1 = e.v)) = true
  · left
    refine List.mem_map.mpr ⟨(e.u, e.v, e.orig, e.inter), ?_, by rw [hu, hv]⟩
    refine List.mem_flatMap.mpr ⟨e, he, ?_⟩
    rw [if_pos h1]
    exact List.mem_singleton_self _
  · by_cases h2 : g.edges.any (fun d => decide (d.1 = e.v ∧ d.2.1 = e.u)) = true
    · right
      refine List.mem_map.mpr ⟨(e.v, e.u, e.orig, e.inter), ?_, by rw [hu, hv]⟩
      refine List.mem_flatMap.mpr ⟨e, he, ?_⟩
      rw [if_neg h1, if_pos h2]
      exact List.mem_singleton_self _
    · left
      refine List.mem_map.mpr ⟨(e.u, e.v, e.orig, e.inter), ?_, by rw [hu, hv]⟩
      refine List.mem_flatMap.mpr ⟨e, he, ?_⟩
      rw [if_neg h1, if_neg h2]
      exact List.mem_cons_self _ _

theorem combined_mem (comps : List (List Str)) (es : List MstEdge) {e : MstEdge}
    (he : e ∈ (componentMSTs comps es).flatMap (fun cf => cf.2)) :
    ∃ c ∈ comps, e ∈ es ∧ e.u ∈ c ∧ e.v ∈ c := by
  obtain ⟨cf, hcf, hecf⟩ := List.mem_flatMap.mp he
  unfold componentMSTs at hcf
  obtain ⟨c, hc, hcfc⟩ := List.mem_map.mp hcf
  by_cases hlen : 1 < c.length
  · rw [if_pos hlen] at hcfc
    subst hcfc
    have h2 := kruskalMST_mem hecf
    have h3 := inducedEdges_mem h2
    exact ⟨c, hc, h3.1, h3.2.1, h3.2.2⟩
  · rw [if_neg hlen] at hcfc
    subst hcfc
    cases hecf

theorem length_le_one_eq {c : List Str} (h : c.length ≤ 1) {a b : Str}
    (ha : a ∈ c) (hb : b ∈ c) : a = b := by
  cases c with
  | nil => cases ha
  | cons x t =>
    cases t with
    | nil =>
      simp only [List.mem_singleton] at ha hb
      rw [ha, hb]
    | cons y t2 => simp at h


theorem multi_reaches_main (g : BGraph)
    (hnd : g.ids.Nodup)
    (hwf : ∀ e ∈ g.edges, e.1 ∈ g.ids ∧ e.2.1 ∈ g.ids)
    {main : Str × ℚ} {rest : List (Str × ℚ)}
    (hsort : sortConnectorsDesc (componentConnectors
      (componentMSTs (componentsOfEdges g.ids ((mstGraphEdges g).map MstEdge.pair))
        (mstGraphEdges g))) = main :: rest) :
    ∀ u ∈ (componentsOfEdges g.ids ((mstGraphEdges g).map MstEdge.pair)).flatten,
      Reaches ((directedReconstruct g
        ((componentMSTs (componentsOfEdges g.ids
            ((mstGraphEdges g).map MstEdge.pair)) (mstGraphEdges g)).flatMap
              (fun cf => cf.2) ++
          syntheticEdges (componentConnectors
            (componentMSTs (componentsOfEdges g.ids
              ((mstGraphEdges g).map MstEdge.pair)) (mstGraphEdges g))))).map
        (fun d => (d.1, d.2.1))) u main.1 := by
  intro u hu
  set es := mstGraphEdges g with hes
  set comps := componentsOfEdges g.ids (es.map MstEdge.pair) with hcomps
  set msts := componentMSTs comps es with hmsts
  set conns := componentConnectors msts with hconns
  set mstAll := msts.flatMap (fun cf => cf.2) ++ syntheticEdges conns with hmstAll
  have heswf : ∀ e ∈ es, e.u ∈ g.ids ∧ e.v ∈ g.ids := mstGraphEdges_wf g hwf
  have hpwf : ∀ p ∈ es.map MstEdge.pair, p.1 ∈ g.ids ∧ p.2 ∈ g.ids := by
    intro p hp
    obtain ⟨d, hd, rfl⟩ := List.mem_map.mp hp
    exact heswf d hd
  have inv := componentsOfEdges_inv g.ids (es.map MstEdge.pair) hnd hpwf
  have hflnd : comps.flatten.Nodup := inv.perm.nodup_iff.mpr hnd
  have hblocks := List.nodup_join.mp hflnd
  have hne : ∀ cf ∈ msts, cf.1 ≠ [] := by
    intro cf hcf
    rw [hmsts] at hcf
    unfold componentMSTs at hcf
    obtain ⟨c, hc, hcfc⟩ := List.mem_map.mp hcf
    have hc0 : c ≠ [] := inv.noEmpty c hc
    split_ifs at hcfc <;> rw [← hcfc] <;> exact hc0
  -- the connector of u's component
  obtain ⟨c, hc, huc⟩ := List.mem_flatten.mp hu
  have hcfmem : (if 1 < c.length then (c, kruskalMST c (inducedEdges c es))
      else (c, [])) ∈ msts := by
    rw [hmsts]
    unfold componentMSTs
    exact List.mem_map.mpr ⟨c, hc, rfl⟩
  obtain ⟨q, hqconns, hq1⟩ := connectors_cover_go msts hne _ hcfmem
  have hq1c : q.1 ∈ c := by
    split_ifs at hq1 <;> exact hq1
  -- lifting forest edges into the directed reconstruction
  have hlift : ∀ a b, (a, b) ∈ mstAll.map MstEdge.pair →
      (a, b) ∈ (directedReconstruct g mstAll).map (fun d => (d.1, d.2.1)) ∨
      (b, a) ∈ (directedReconstruct g mstAll).map (fun d => (d.1, d.2.1)) :=
    directedReconstruct_orient g mstAll
  -- reach from u to the connector, inside the component
  have hforest : Reaches ((if 1 < c.length then
      kruskalMST c (inducedEdges c es) else []).map MstEdge.pair) u q.1 := by
    by_cases hlen : 1 < c.length
    · rw [if_pos hlen]
      have hcnd : c.Nodup := hblocks.1 c hc
      have hindwf : ∀ e ∈ inducedEdges c es, e.u ∈ c ∧ e.v ∈ c := by
        intro e he
        have h3 := inducedEdges_mem he
        exact ⟨h3.2.1, h3.2.2⟩
      refine (kruskalMST_reaches c (inducedEdges c es) hcnd hindwf u q.1).mpr ?_
      exact reaches_induced g.ids es hnd heswf hc huc hq1c
    · rw [if_neg hlen]
      have : u = q.1 := length_le_one_eq (by omega) huc hq1c
      rw [this]
      exact Reaches.refl _
  have hforest_sub : ∀ a b, (a, b) ∈ ((if 1 < c.length then
      kruskalMST c (inducedEdges c es) else []).map MstEdge.pair) →
      (a, b) ∈ mstAll.map MstEdge.pair := by
    intro a b hab
    obtain ⟨d, hd, hdp⟩ := List.mem_map.mp hab
    refine List.mem_map.mpr ⟨d, ?_, hdp⟩
    rw [hmstAll]
    refine List.mem_append_left _ ?_
    refine List.mem_flatMap.mpr ⟨_, hcfmem, ?_⟩
    split_ifs at hd ⊢ with h1
    · exact hd
    · cases hd
  have hudir : Reaches ((directedReconstruct g mstAll).map
      (fun d => (d.1, d.2.1))) u q.1 :=
    Reaches.mono (fun a b hab => hlift a b (hforest_sub a b hab)) hforest
  -- reach from the connector to the main connector
  have hqsorted : q ∈ main :: rest := by
    rw [← hsort]
    exact (sortConnectors_perm conns).mem_iff.mpr hqconns
  rcases List.mem_cons.mp hqsorted with rfl | hqrest
  · exact hudir
  · have hsyn : (⟨main.1, q.1, 1 / 10, 10, true⟩ : MstEdge) ∈
        syntheticEdges conns := by
      unfold syntheticEdges
      rw [hsort]
      exact List.mem_map.mpr ⟨q, hqrest, rfl⟩
    have hpairmem : ((main.1, q.1) : Str × Str) ∈ mstAll.map MstEdge.pair := by
      refine List.mem_map.mpr ⟨⟨main.1, q.1, 1 / 10, 10, true⟩, ?_, rfl⟩
      rw [hmstAll]
      exact List.mem_append_right _ hsyn
    have hqmain : Reaches ((directedReconstruct g mstAll).map
        (fun d => (d.1, d.2.1))) main.1 q.1 :=
      Reaches.single (hlift _ _ hpairmem)
    exact hudir.trans hqmain.symm


/-- C6: on a working graph whose MST working projection has k >= 2
connected components, `_find_minimal_subgraph` takes the multi-component
branch: it emits exactly k-1 synthetic edges tagged `inter_component`
(and they are exactly the inter-tagged edges of the combined MST), each
running from the single highest-centrality connector `main` to a distinct
other component connector (star topology), and the directed
reconstruction is weakly connected — its undirected component count is
exactly 1. -/
theorem minimal_subgraph_star_connectivity (g : BGraph)
    (hnd : g.ids.Nodup)
    (hwf : ∀ e ∈ g.edges, e.1 ∈ g.ids ∧ e.2.1 ∈ g.ids)
    (hk : 2 ≤ (workingComponents g).length) :
    ∃ main rest, workingConnectors g = main :: rest ∧
      (∀ q ∈ componentConnectors (workingMSTs g), q.2 ≤ main.2) ∧
      (syntheticEdges (componentConnectors (workingMSTs g))).length
        = (workingComponents g).length - 1 ∧
      (∀ e ∈ syntheticEdges (componentConnectors (workingMSTs g)),
        e.u = main.1 ∧ e.inter = true ∧ e.orig = 10 ∧ e.v ≠ main.1 ∧
        ∃ q ∈ componentConnectors (workingMSTs g), e.v = q.1) ∧
      ((multiComponentMST (workingComponents g) (mstGraphEdges g)).2.filter
        (fun e => e.inter)).length = (workingComponents g).length - 1 ∧
      (∀ cs : CentralityScoreSet, findMinimalSubgraph g (some cs) =
        some ⟨(multiComponentMST (workingComponents g) (mstGraphEdges g)).1,
              (multiComponentMST (workingComponents g) (mstGraphEdges g)).2,
              directedReconstruct g
                (multiComponentMST (workingComponents g) (mstGraphEdges g)).2⟩) ∧
      (componentsOfEdges
        (multiComponentMST (workingComponents g) (mstGraphEdges g)).1
        ((directedReconstruct g
          (multiComponentMST (workingComponents g) (mstGraphEdges g)).2).map
            (fun d => (d.1, d.2.1)))).length = 1 := by
  have hes : mstGraphEdges g = mstGraphEdges g := rfl
  have heswf : ∀ e ∈ mstGraphEdges g, e.u ∈ g.ids ∧ e.v ∈ g.ids :=
    mstGraphEdges_wf g hwf
  have hpwf : ∀ p ∈ (mstGraphEdges g).map MstEdge.pair,
      p.1 ∈ g.ids ∧ p.2 ∈ g.ids := by
    intro p hp
    obtain ⟨d, hd, rfl⟩ := List.mem_map.mp hp
    exact heswf d hd
  have inv := componentsOfEdges_inv g.ids ((mstGraphEdges g).map MstEdge.pair)
    hnd hpwf
  have hflnd : (workingComponents g).flatten.Nodup := inv.perm.nodup_iff.mpr hnd
  have hblocks := List.nodup_join.mp hflnd
  have hmne : ∀ cf ∈ workingMSTs g, cf.1 ≠ [] := by
    intro cf hcf
    unfold workingMSTs componentMSTs at hcf
    obtain ⟨c, hc, hcfc⟩ := List.mem_map.mp hcf
    have hc0 : c ≠ [] := inv.noEmpty c hc
    split_ifs at hcfc <;> rw [← hcfc] <;> exact hc0
  have hclen : (componentConnectors (workingMSTs g)).length
      = (workingComponents g).length := by
    rw [connectors_length_go (workingMSTs g) hmne]
    unfold workingMSTs componentMSTs
    rw [List.length_map]
  -- the sorted connector list is nonempty: extract its head
  rcases hsc : sortConnectorsDesc (componentConnectors (workingMSTs g)) with
    _ | ⟨main, rest⟩
  · exfalso
    have h0 : (sortConnectorsDesc (componentConnectors (workingMSTs g))).length
        = (componentConnectors (workingMSTs g)).length :=
      (sortConnectors_perm _).length_eq
    rw [hsc, hclen] at h0
    rw [List.length_nil] at h0
    omega
  refine ⟨main, rest, hsc, ?_, ?_, ?_, ?_, ?_, ?_⟩
  · exact fun q hq => sortConnectors_head_max hsc q hq
  · unfold syntheticEdges
    rw [hsc, List.length_map]
    have h0 : (main :: rest).length
        = (componentConnectors (workingMSTs g)).length := by
      rw [← hsc]
      exact (sortConnectors_perm _).length_eq
    rw [hclen] at h0
    rw [List.length_cons] at h0
    omega
  · -- star shape of the synthetic edges
    have hdisj : (workingMSTs g).Pairwise (fun a b => List.Disjoint a.1 b.1) := by
      have h1 : ((workingMSTs g).map Prod.fst).Pairwise List.Disjoint := by
        have h2 : (workingMSTs g).map Prod.fst = workingComponents g :=
          componentMSTs_fst (workingComponents g) (mstGraphEdges g)
        rw [h2]
        exact hblocks.2
      exact (List.pairwise_map.mp h1)
    have hpw : (componentConnectors (workingMSTs g)).Pairwise
        (fun a b => a.1 ≠ b.1) := connectors_pairwise_go (workingMSTs g) hdisj
    have hpws : (main :: rest).Pairwise (fun a b => a.1 ≠ b.1) := by
      rw [← hsc]
      refine ((sortConnectors_perm _).pairwise_iff ?_).mpr hpw
      intro x y h h2
      exact h h2.symm
    rw [List.pairwise_cons] at hpws
    intro e he
    unfold syntheticEdges at he
    rw [hsc] at he
    obtain ⟨q, hq, rfl⟩ := List.mem_map.mp he
    have hqconns : q ∈ componentConnectors (workingMSTs g) :=
      (sortConnectors_perm _).mem_iff.mp (hsc ▸ List.mem_cons_of_mem main hq)
    exact ⟨rfl, rfl, rfl, fun hv => hpws.1 q hq hv.symm, q, hqconns, rfl⟩
  · -- the inter_component tags are exactly the synthetic star edges
    have h2 : (multiComponentMST (workingComponents g) (mstGraphEdges g)).2
        = (workingMSTs g).flatMap (fun cf => cf.2) ++
          syntheticEdges (componentConnectors (workingMSTs g)) := rfl
    rw [h2, List.filter_append]
    have hcomb : ((workingMSTs g).flatMap (fun cf => cf.2)).filter
        (fun e => e.inter) = [] := by
      rw [List.filter_eq_nil_iff]
      intro e he
      obtain ⟨c, _, hees, _, _⟩ := combined_mem (workingComponents g)
        (mstGraphEdges g) he
      have h3 := mstGraphEdges_not_inter g e hees
      simp [h3]
    have hsynf : (syntheticEdges (componentConnectors (workingMSTs g))).filter
        (fun e => e.inter) =
        syntheticEdges (componentConnectors (workingMSTs g)) := by
      rw [List.filter_eq_self]
      intro e he
      unfold syntheticEdges at he
      rw [hsc] at he
      obtain ⟨q, hq, rfl⟩ := List.mem_map.mp he
      rfl
    rw [hcomb, hsynf, List.nil_append]
    unfold syntheticEdges
    rw [hsc, List.length_map]
    have h0 : (main :: rest).length
        = (componentConnectors (workingMSTs g)).length := by
      rw [← hsc]
      exact (sortConnectors_perm _).length_eq
    rw [hclen] at h0
    rw [List.length_cons] at h0
    omega
  · -- the function returns the multi-component reduction
    intro cs
    unfold findMinimalSubgraph
    have hids : g.ids ≠ [] := by
      intro h0
      rcases hcomps : workingComponents g with _ | ⟨c, t⟩
      · rw [hcomps] at hk
        simp at hk
      · have hcm : c ∈ workingComponents g := by
          rw [hcomps]
          exact List.mem_cons_self c t
        have hc0 : c ≠ [] := inv.noEmpty c hcm
        rcases hc1 : c with _ | ⟨x, xt⟩
        · exact hc0 hc1
        · have hx : x ∈ (workingComponents g).flatten :=
            List.mem_flatten.mpr ⟨c, by rw [hcomps]; exact List.mem_cons_self c t,
              by rw [hc1]; exact List.mem_cons_self x xt⟩
          have hx2 : x ∈ g.ids := inv.perm.mem_iff.mp hx
          rw [h0] at hx2
          cases hx2
    have hnlen : ¬ g.nodes.length = 0 := by
      intro h0
      apply hids
      unfold BGraph.ids
      rw [List.length_eq_zero] at h0
      rw [h0]
      rfl
    have hne1 : ¬ (componentsOfEdges g.ids
        ((mstGraphEdges g).map MstEdge.pair)).length = 1 := by
      intro h1
      have : (workingComponents g).length = 1 := h1
      omega
    simp only [if_neg hnlen, if_neg hne1]
    rfl
  · -- connectivity: a single component after reconstruction
    have hS : (multiComponentMST (workingComponents g) (mstGraphEdges g)).1
        = (workingComponents g).flatten := by
      have h1 : (multiComponentMST (workingComponents g) (mstGraphEdges g)).1
          = ((componentMSTs (workingComponents g)
              (mstGraphEdges g)).map Prod.fst).flatten := rfl
      rw [h1, componentMSTs_fst (workingComponents g) (mstGraphEdges g)]
    have hM2 : (multiComponentMST (workingComponents g) (mstGraphEdges g)).2
        = (workingMSTs g).flatMap (fun cf => cf.2) ++
          syntheticEdges (componentConnectors (workingMSTs g)) := rfl
    have hMwf : ∀ e ∈ (multiComponentMST (workingComponents g)
        (mstGraphEdges g)).2,
        e.u ∈ (workingComponents g).flatten ∧
        e.v ∈ (workingComponents g).flatten := by
      intro e he
      rw [hM2] at he
      rcases List.mem_append.mp he with h1 | h1
      · obtain ⟨c, hc, _, hu, hv⟩ := combined_mem (workingComponents g)
          (mstGraphEdges g) h1
        exact ⟨List.mem_flatten.mpr ⟨c, hc, hu⟩, List.mem_flatten.mpr ⟨c, hc, hv⟩⟩
      · unfold syntheticEdges at h1
        rw [hsc] at h1
        obtain ⟨q, hq, rfl⟩ := List.mem_map.mp h1
        have hmc : main ∈ componentConnectors (workingMSTs g) :=
          (sortConnectors_perm _).mem_iff.mp (hsc ▸ List.mem_cons_self main rest)
        have hqc : q ∈ componentConnectors (workingMSTs g) :=
          (sortConnectors_perm _).mem_iff.mp (hsc ▸ List.mem_cons_of_mem main hq)
        obtain ⟨cf1, hcf1, hm1⟩ := connectors_mem_go (workingMSTs g) main hmc
        obtain ⟨cf2, hcf2, hq1⟩ := connectors_mem_go (workingMSTs g) q hqc
        have hc1 : cf1.1 ∈ workingComponents g := by
          rw [← componentMSTs_fst (workingComponents g) (mstGraphEdges g)]
          exact List.mem_map.mpr ⟨cf1, hcf1, rfl⟩
        have hc2 : cf2.1 ∈ workingComponents g := by
          rw [← componentMSTs_fst (workingComponents g) (mstGraphEdges g)]
          exact List.mem_map.mpr ⟨cf2, hcf2, rfl⟩
        exact ⟨List.mem_flatten.mpr ⟨cf1.1, hc1, hm1⟩,
          List.mem_flatten.mpr ⟨cf2.1, hc2, hq1⟩⟩
    have hdwf : ∀ p ∈ ((directedReconstruct g
        (multiComponentMST (workingComponents g) (mstGraphEdges g)).2).map
          (fun d => (d.1, d.2.1))),
        p.1 ∈ (workingComponents g).flatten ∧
        p.2 ∈ (workingComponents g).flatten := by
      intro p hp
      obtain ⟨d, hd, rfl⟩ := List.mem_map.mp hp
      exact directedReconstruct_wf g _ _ hMwf d hd
    have hSnd : (multiComponentMST (workingComponents g)
        (mstGraphEdges g)).1.Nodup := by
      rw [hS]
      exact hflnd
    have hSne : (multiComponentMST (workingComponents g)
        (mstGraphEdges g)).1 ≠ [] := by
      rw [hS]
      intro h0
      rcases hcomps : workingComponents g with _ | ⟨c, t⟩
      · rw [hcomps] at hk
        simp at hk
      · have hcm2 : c ∈ workingComponents g := by
          rw [hcomps]
          exact List.mem_cons_self c t
        have hc0 : c ≠ [] := inv.noEmpty c hcm2
        rw [hcomps] at h0
        rw [List.flatten_cons] at h0
        exact hc0 (List.append_eq_nil.mp h0).1
    have hdwf2 : ∀ p ∈ ((directedReconstruct g
        (multiComponentMST (workingComponents g) (mstGraphEdges g)).2).map
          (fun d => (d.1, d.2.1))),
        p.1 ∈ (multiComponentMST (workingComponents g) (mstGraphEdges g)).1 ∧
        p.2 ∈ (multiComponentMST (workingComponents g) (mstGraphEdges g)).1 := by
      rw [hS]
      exact hdwf
    have hall : ∀ a ∈ (multiComponentMST (workingComponents g)
          (mstGraphEdges g)).1,
        ∀ b ∈ (multiComponentMST (workingComponents g) (mstGraphEdges g)).1,
        Reaches ((directedReconstruct g
          (multiComponentMST (workingComponents g) (mstGraphEdges g)).2).map
            (fun d => (d.1, d.2.1))) a b := by
      intro a ha b hb
      rw [hS] at ha hb
      have hra := multi_reaches_main g hnd hwf hsc a ha
      have hrb := multi_reaches_main g hnd hwf hsc b hb
      exact hra.trans hrb.symm
    exact comps_length_one hSnd hdwf2 hSne hall


/-- Witness for C6 on the concrete ten-node graph with components of
sizes 5, 3 and 2: all hypotheses hold and the star property follows, in
particular 3 - 1 = 2 synthetic inter-component edges and a single final
component. -/
theorem minimal_subgraph_star_connectivity_witness :
    exG.ids.Nodup ∧
    (∀ e ∈ exG.edges, e.1 ∈ exG.ids ∧ e.2.1 ∈ exG.ids) ∧
    2 ≤ (workingComponents exG).length ∧
    (workingComponents exG).map List.length = [2, 3, 5] ∧
    (∃ main rest, workingConnectors exG = main :: rest ∧
      (∀ q ∈ componentConnectors (workingMSTs exG), q.2 ≤ main.2) ∧
      (syntheticEdges (componentConnectors (workingMSTs exG))).length
        = (workingComponents exG).length - 1 ∧
      (∀ e ∈ syntheticEdges (componentConnectors (workingMSTs exG)),
        e.u = main.1 ∧ e.inter = true ∧ e.orig = 10 ∧ e.v ≠ main.1 ∧
        ∃ q ∈ componentConnectors (workingMSTs exG), e.v = q.1) ∧
      ((multiComponentMST (workingComponents exG) (mstGraphEdges exG)).2.filter
        (fun e => e.inter)).length = (workingComponents exG).length - 1 ∧
      (∀ cs : CentralityScoreSet, findMinimalSubgraph exG (some cs) =
        some ⟨(multiComponentMST (workingComponents exG) (mstGraphEdges exG)).1,
              (multiComponentMST (workingComponents exG) (mstGraphEdges exG)).2,
              directedReconstruct exG
                (multiComponentMST (workingComponents exG) (mstGraphEdges exG)).2⟩) ∧
      (componentsOfEdges
        (multiComponentMST (workingComponents exG) (mstGraphEdges exG)).1
        ((directedReconstruct exG
          (multiComponentMST (workingComponents exG) (mstGraphEdges exG)).2).map
            (fun d => (d.1, d.2.1)))).length = 1) :=
  ⟨by decide, by decide, by decide, by decide,
   minimal_subgraph_star_connectivity exG (by decide) (by decide) (by decide)⟩

end Glyph
